import Mathlib

/-!
Shallow embedding of `src/polling.py` (Limitless API polling script).

The script keeps an in-memory map of last-seen lifelog entries, appends
rendered entries to a daily transcript file, detects trigger phrases,
derives a fetch cursor from entries that stayed stable for
`STABLE_POLLS_REQUIRED` consecutive polls, and retries failed cycles with
exponential backoff.  Pure data and control flow are translated here;
network and filesystem effects are modelled as explicit inputs
(`CycleEvent`) and outputs (transcript/notification lists, `Except` for an
uncaught exception that terminates the process).
-/

/-- Polling configuration constant `BACKOFF_INITIAL = 5` (seconds). -/
def BACKOFF_INITIAL : Nat := 5

/-- Polling configuration constant `BACKOFF_MAX = 300` (seconds). -/
def BACKOFF_MAX : Nat := 300

/-- Polling configuration constant `STABLE_POLLS_REQUIRED = 3`. -/
def STABLE_POLLS_REQUIRED : Nat := 3

/-! ### Trigger pattern

`TRIGGER_PATTERN = re.compile(r"(to do list|perplexity|julio)", re.IGNORECASE)`.
Matching is modelled character by character: at each position the
alternatives are tried in order (leftmost-first regex semantics), the
matched original characters are returned together with the rest of the
input.  `re.IGNORECASE` on these ASCII literals is folding with
`Char.toLower`. -/

/-- Case-insensitive literal match of `pat` (given lowercase) against a
prefix of `cs`; returns the original matched characters and the rest. -/
def matchPrefixCI : List Char → List Char → Option (List Char × List Char)
  | [], cs => some ([], cs)
  | _ :: _, [] => none
  | p :: ps, c :: cs =>
    if p = c.toLower then
      match matchPrefixCI ps cs with
      | some (m, r) => some (c :: m, r)
      | none => none
    else none

/-- Try the three alternatives of `TRIGGER_PATTERN` in alternation order at
the current position. -/
def matchAnyAt (cs : List Char) : Option (List Char × List Char) :=
  match matchPrefixCI "to do list".data cs with
  | some x => some x
  | none =>
    match matchPrefixCI "perplexity".data cs with
    | some x => some x
    | none => matchPrefixCI "julio".data cs

/-- `TRIGGER_PATTERN.search`: scan left to right, return `group(0)` of the
first match. -/
def searchTriggerAux : List Char → Option (List Char)
  | [] => none
  | c :: cs =>
    match matchAnyAt (c :: cs) with
    | some (m, _) => some m
    | none => searchTriggerAux cs

/-- `trigger_search.group(0).lower()` for the first match, if any
(lines 256-258 of the source). -/
def findTrigger (s : String) : Option String :=
  (searchTriggerAux s.data).map (fun m => ⟨m.map Char.toLower⟩)

/-- `TRIGGER_PATTERN.sub(lambda m: f"**{m.group(0)}**", raw)`: wrap every
(non-overlapping, leftmost) match in `**`.  The fuel argument bounds the
recursion; it is set to the length of the input, which suffices because
every match consumes at least one character. -/
def highlightAux : Nat → List Char → List Char
  | 0, cs => cs
  | _ + 1, [] => []
  | fuel + 1, c :: cs =>
    match matchAnyAt (c :: cs) with
    | some (m, r) => '*' :: '*' :: (m ++ '*' :: '*' :: highlightAux fuel r)
    | none => c :: highlightAux fuel cs

/-- The highlighted rendering of `raw` (line 249 of the source). -/
def highlight (raw : String) : String :=
  ⟨highlightAux raw.data.length raw.data⟩

/-- `md_entry = f"{highlighted}\n\n"` (line 250): the exact text appended to
the transcript file for one entry. -/
def mdEntry (raw : String) : String :=
  highlight raw ++ "\n\n"

/-! ### Lifelog entries and content extraction -/

/-- One element of the `data.lifelogs` array as used by `main`.  `text` is
the joined `textChunks` field when present. -/
structure Lifelog where
  id : String
  text : Option String
  markdown : Option String
  endTime : String
  title : Option String
deriving DecidableEq

/-- Python `a or b` for an optional string against a default: `None` and
`""` are falsy. -/
def pyOr (a : Option String) (b : String) : String :=
  match a with
  | none => b
  | some s => if s = "" then b else s

/-- `content = lifelog.get("text") or lifelog.get("markdown") or ""`
(lines 220-224). -/
def contentOf (l : Lifelog) : String :=
  pyOr l.text (pyOr l.markdown "")

/-! ### Association lists standing for Python dicts

Python dict lookup / `d[k] = v` (update in place keeps the key's position,
a new key is appended) / deletion are modelled on ordered association
lists. -/

/-- `d.get(k)`. -/
def assocGet {α : Type} : List (String × α) → String → Option α
  | [], _ => none
  | (k, v) :: rest, key => if k = key then some v else assocGet rest key

/-- `d[k] = v`: overwrite in place, or append the new key. -/
def assocSet {α : Type} : List (String × α) → String → α → List (String × α)
  | [], key, v => [(key, v)]
  | (k, w) :: rest, key, v =>
    if k = key then (key, v) :: rest else (k, w) :: assocSet rest key v

/-- `s.add(x)` for a set modelled as a duplicate-free list. -/
def insertId (ids : List String) (i : String) : List String :=
  if i ∈ ids then ids else i :: ids

/-- Per-id record stored in `last_lifelogs`. -/
structure Tracked where
  content : String
  endTime : String
  stable_count : Nat
deriving DecidableEq

/-! ### Python string comparison

`endTime` values are compared with Python's `<` / `>` on `str`:
lexicographic by code point, a strict prefix being smaller. -/

/-- Python `<` on strings, on the underlying characters. -/
def charListLt : List Char → List Char → Bool
  | [], [] => false
  | [], _ :: _ => true
  | _ :: _, [] => false
  | a :: as, b :: bs => a < b || (a = b && charListLt as bs)

/-- Python `a < b` for strings. -/
def pyStrLt (a b : String) : Bool :=
  charListLt a.data b.data

/-- Python `a <= b` for strings (total order: not `b < a`). -/
def pyStrLe (a b : String) : Bool :=
  !pyStrLt b a

/-! ### One reconcile pass (lines 215-239) -/

/-- Accumulator for the per-entry loop of one poll cycle: the evolving
`last_lifelogs` dict, the `updated_ids` set, and the
`most_recent_update` candidate `(lifelog, previous content)`. -/
structure CycleAcc where
  state : List (String × Tracked)
  updatedIds : List String
  mostRecentUpdate : Option (Lifelog × String)
deriving DecidableEq

/-- Lines 219-239: process one lifelog of the batch against the tracked
state.  A never-seen id is recorded as the candidate unconditionally; a
changed id supersedes the candidate only when the candidate is absent or
its `endTime` is strictly smaller; an unchanged id increments
`stable_count`.  The id always enters `updated_ids`. -/
def trackEntry (acc : CycleAcc) (l : Lifelog) : CycleAcc :=
  let content := contentOf l
  let acc' :=
    match assocGet acc.state l.id with
    | none =>
      { acc with
        mostRecentUpdate := some (l, "")
        state := assocSet acc.state l.id ⟨content, l.endTime, 1⟩ }
    | some prev =>
      if content ≠ prev.content ∨ l.endTime ≠ prev.endTime then
        { acc with
          mostRecentUpdate :=
            match acc.mostRecentUpdate with
            | none => some (l, prev.content)
            | some (c, pc) =>
              if pyStrLt c.endTime l.endTime then some (l, prev.content) else some (c, pc)
          state := assocSet acc.state l.id ⟨content, l.endTime, 1⟩ }
      else
        { acc with
          state :=
            assocSet acc.state l.id ⟨prev.content, prev.endTime, prev.stable_count + 1⟩ }
  { acc' with updatedIds := insertId acc'.updatedIds l.id }

/-! ### Transcript writing and trigger alerts (lines 241-265) -/

/-- The per-process side state: `written_logs`, the transcript entries
appended so far this day, `alerted_triggers`, and the trigger
notifications sent (in order). -/
structure SideState where
  written_logs : List (String × String)
  transcript : List String
  alerted_triggers : List String
  trigger_notifs : List String
deriving DecidableEq

/-- Lines 241-254: append `mdEntry content` unless `written_logs` already
records exactly this content for this id, then record it. -/
def writeStep (side : SideState) (l : Lifelog) : SideState :=
  let content := contentOf l
  if assocGet side.written_logs l.id ≠ some content then
    { side with
      transcript := side.transcript ++ [mdEntry content]
      written_logs := assocSet side.written_logs l.id content }
  else side

/-- Lines 256-265: search the raw content for a trigger; notify and record
the lowercased phrase unless it was already alerted this run. -/
def triggerStep (side : SideState) (raw : String) : SideState :=
  match findTrigger raw with
  | none => side
  | some phrase =>
    if phrase ∈ side.alerted_triggers then side
    else
      { side with
        trigger_notifs := side.trigger_notifs ++ [phrase]
        alerted_triggers := phrase :: side.alerted_triggers }

/-- The full per-entry side effect: transcript write then trigger check. -/
def sideStep (side : SideState) (l : Lifelog) : SideState :=
  triggerStep (writeStep side l) (contentOf l)

/-- The body of the `for lifelog in lifelogs` loop.  `fails` lists the ids
whose transcript append raises an `OSError` (the `open`/`write` at
lines 251-252); in that case the loop aborts with the state mutated so
far, which the surrounding `except Exception` observes.  An append is
attempted only when the content comparison requires one. -/
def runEntries (fails : List String) :
    CycleAcc → SideState → List Lifelog → Except (CycleAcc × SideState) (CycleAcc × SideState)
  | acc, side, [] => .ok (acc, side)
  | acc, side, l :: ls =>
    let acc' := trackEntry acc l
    if l.id ∈ fails ∧ assocGet side.written_logs l.id ≠ some (contentOf l) then
      .error (acc', side)
    else
      runEntries fails acc' (sideStep side l) ls

/-! ### Cursor advancement (lines 284-292) -/

/-- `max(stable_lifelogs, key=lambda x: x[1]["endTime"])`: Python `max`
keeps the earliest element among ties and replaces the best only on a
strictly greater key. -/
def pyMaxByEnd (x : String × Tracked) : List (String × Tracked) → String × Tracked
  | [] => x
  | y :: ys => pyMaxByEnd (if pyStrLt x.2.endTime y.2.endTime then y else x) ys

/-- Lines 284-292: if some tracked entry has
`stable_count ≥ STABLE_POLLS_REQUIRED`, set the cursor to the maximal
`endTime` among those entries, otherwise keep the previous cursor. -/
def advanceCursor (state : List (String × Tracked)) (cursor : Option String) :
    Option String :=
  match state.filter (fun kv => decide (STABLE_POLLS_REQUIRED ≤ kv.2.stable_count)) with
  | [] => cursor
  | x :: xs => some (pyMaxByEnd x xs).2.endTime

/-! ### The poll loop (lines 178-304)

One iteration of `while True` is driven by a `CycleEvent` describing what
the outside world does that cycle: the unprotected date-rollover block at
the top of the loop may raise a filesystem error (`rolloverFsErr`), the
`fetch_lifelogs` call inside the `try` may raise (`fetchErr`), or a batch
arrives, possibly with transcript appends that raise (`batch`).  An
`Except.error` result is an uncaught exception: the process terminates. -/

/-- Uncaught Python exception kinds that matter to the loop's control
flow. -/
inductive PyError where
  | osError
deriving DecidableEq

/-- External input to one `while True` iteration. -/
inductive CycleEvent where
  | rolloverFsErr
  | fetchErr
  | batch (lifelogs : List Lifelog) (failAppendIds : List String)
deriving DecidableEq

/-- All mutable state of `main` that survives from one cycle to the
next. -/
structure LoopState where
  last_lifelogs : List (String × Tracked)
  last_stable_end_time : Option String
  backoff : Nat
  side : SideState
  mainNotifs : List (String × String × String)
deriving DecidableEq

/-- Initial side state (lines 193-194). -/
def initSide : SideState := ⟨[], [], [], []⟩

/-- State after lines 190-194: empty dicts, no cursor, initial backoff. -/
def initState : LoopState :=
  ⟨[], none, BACKOFF_INITIAL, initSide, []⟩

/-- Lines 267-295 after a fully successful batch: delete ids not seen this
cycle, send the `most_recent_update` notification, advance the cursor,
sleep the current backoff and reset it.  Returns the new state and the
slept duration. -/
def finishCycle (st : LoopState) (acc : CycleAcc) (side : SideState) :
    LoopState × Nat :=
  let state' := acc.state.filter (fun kv => decide (kv.1 ∈ acc.updatedIds))
  let notifs :=
    match acc.mostRecentUpdate with
    | none => st.mainNotifs
    | some (l, prevContent) => st.mainNotifs ++ [(l.id, prevContent, contentOf l)]
  ({ last_lifelogs := state'
     last_stable_end_time := advanceCursor state' st.last_stable_end_time
     backoff := BACKOFF_INITIAL
     side := side
     mainNotifs := notifs }, st.backoff)

/-- Lines 296-304, the `except Exception` branch: sleep the current
backoff, then double it capped at `BACKOFF_MAX`. -/
def backoffCycle (st : LoopState) : LoopState × Nat :=
  ({ st with backoff := min (st.backoff * 2) BACKOFF_MAX }, st.backoff)

/-- One `while True` iteration.  The rollover block (lines 198-207) runs
outside the `try`, so a filesystem error there propagates and kills the
process.  Everything raised inside the `try` (lines 209-295) - fetch
failure or a transcript-append failure part way through the batch - is
caught by `except Exception` and takes the backoff path with whatever
state mutations had already happened. -/
def runCycleEvent (st : LoopState) (ev : CycleEvent) :
    Except PyError (LoopState × Nat) :=
  match ev with
  | .rolloverFsErr => .error .osError
  | .fetchErr => .ok (backoffCycle st)
  | .batch lifelogs failAppendIds =>
    match runEntries failAppendIds ⟨st.last_lifelogs, [], none⟩ st.side lifelogs with
    | .ok (acc, side) => .ok (finishCycle st acc side)
    | .error (acc, side) =>
      .ok (backoffCycle { st with last_lifelogs := acc.state, side := side })

/-- Run the loop over a list of cycle events, collecting the slept
durations; an uncaught exception aborts the run. -/
def runLoop : LoopState → List CycleEvent → Except PyError (LoopState × List Nat)
  | st, [] => .ok (st, [])
  | st, ev :: evs =>
    match runCycleEvent st ev with
    | .error e => .error e
    | .ok (st', n) =>
      match runLoop st' evs with
      | .error e => .error e
      | .ok (stFin, ns) => .ok (stFin, n :: ns)

/-- Final state of a run started from `initState` (the initial state again
if the process died). -/
def stateAfter (evs : List CycleEvent) : LoopState :=
  match runLoop initState evs with
  | .ok (st, _) => st
  | .error _ => initState

/-- The sleeps performed by a run started from `initState`. -/
def sleepsOf (evs : List CycleEvent) : List Nat :=
  match runLoop initState evs with
  | .ok (_, ns) => ns
  | .error _ => []

/-- Whether one cycle terminates the process (its exception propagates). -/
def cycleTerminates (st : LoopState) (ev : CycleEvent) : Bool :=
  match runCycleEvent st ev with
  | .error _ => true
  | .ok _ => false

/-- The duration slept by one non-fatal cycle. -/
def sleepOfCycle (st : LoopState) (ev : CycleEvent) : Option Nat :=
  match runCycleEvent st ev with
  | .error _ => none
  | .ok (_, n) => some n

/-- The backoff value after one non-fatal cycle. -/
def backoffAfterCycle (st : LoopState) (ev : CycleEvent) : Option Nat :=
  match runCycleEvent st ev with
  | .error _ => none
  | .ok (st', _) => some st'.backoff

/-- The transcript entries after one non-fatal cycle. -/
def transcriptAfterCycle (st : LoopState) (ev : CycleEvent) : Option (List String) :=
  match runCycleEvent st ev with
  | .error _ => none
  | .ok (st', _) => some st'.side.transcript

/-! ### `deduplicate_transcript` (lines 129-175)

The file is read with `readlines()` (each line keeps its trailing
newline), split into a preamble (lines before the first line starting
with `"## "`) and `(header, body)` entries, and rewritten keeping only
the first entry for each distinct stripped body text. -/

/-- `line.startswith("## ")` on explicit characters. -/
def startsWithChars : List Char → List Char → Bool
  | [], _ => true
  | _ :: _, [] => false
  | p :: ps, c :: cs => p = c && startsWithChars ps cs

/-- The entry marker test of `deduplicate_transcript`. -/
def isHeader (l : String) : Bool :=
  startsWithChars "## ".data l.data

/-- Characters stripped by Python `str.strip()` with no argument. -/
def isPySpace (c : Char) : Bool :=
  c = ' ' || c = '\t' || c = '\n' || c = '\r' || c = '\x0b' || c = '\x0c'

/-- Python `s.strip()`. -/
def pyStrip (s : String) : String :=
  ⟨((s.data.dropWhile isPySpace).reverse.dropWhile isPySpace).reverse⟩

/-- `"".join(entry_lines).strip()`: the deduplication key of an entry
body. -/
def entryKey (body : List String) : String :=
  pyStrip (String.join body)

/-- The first `for line in iterator` loop (lines 144-153): collect the
preamble and find the first header line, if any. -/
def splitPreamble : List String → List String × Option (String × List String)
  | [] => ([], none)
  | l :: ls =>
    if isHeader l then ([], some (l, ls))
    else
      let (p, r) := splitPreamble ls
      (l :: p, r)

/-- The second loop plus the final flush (lines 155-169): walk the
remaining lines accumulating the current entry's body, emitting each
entry whose stripped body was not seen before. -/
def dedupLoop (header : String) (acc : List String) :
    List String → List (String × List String) → List String → List (String × List String)
  | [], entries, seen =>
    if entryKey acc ∈ seen then entries else entries ++ [(header, acc)]
  | l :: ls, entries, seen =>
    if isHeader l then
      if entryKey acc ∈ seen then dedupLoop l [] ls entries seen
      else dedupLoop l [] ls (entries ++ [(header, acc)]) (entryKey acc :: seen)
    else
      dedupLoop header (acc ++ [l]) ls entries seen

/-- `deduplicate_transcript` as a function from the file's lines to the
rewritten file's lines. -/
def deduplicate_transcript (lines : List String) : List String :=
  match splitPreamble lines with
  | (preamble, none) => preamble
  | (preamble, some (header, rest)) =>
    preamble ++ (dedupLoop header [] rest [] []).flatMap (fun e => e.1 :: e.2)

/-! ### Line structure of written content

`readlines` splits file content after each newline.  `headerFree`
describes strings none of whose lines start with `"## "`. -/

/-- Split a character stream into lines, each keeping its trailing
newline, as `readlines()` does. -/
def linesKeepAux (acc : List Char) : List Char → List String
  | [] => if acc = [] then [] else [⟨acc⟩]
  | c :: cs =>
    if c = '\n' then ⟨acc ++ [c]⟩ :: linesKeepAux [] cs
    else linesKeepAux (acc ++ [c]) cs

/-- `readlines()` of a string. -/
def linesKeepNl (s : String) : List String :=
  linesKeepAux [] s.data

/-- No position directly after a newline starts with `"## "`. -/
def noHdrAfterNl : List Char → Bool
  | [] => true
  | c :: cs =>
    if c = '\n' then !startsWithChars "## ".data cs && noHdrAfterNl cs
    else noHdrAfterNl cs

/-- No line of the character stream starts with `"## "`. -/
def headerFree (cs : List Char) : Bool :=
  !startsWithChars "## ".data cs && noHdrAfterNl cs

/-! ### Auxiliary definitions used by the verification statements -/

/-- The side state carried out of the per-entry loop, whether or not it
completed (an exception keeps the mutations made so far). -/
def entriesSide (r : Except (CycleAcc × SideState) (CycleAcc × SideState)) : SideState :=
  match r with
  | .ok (_, s) => s
  | .error (_, s) => s

/-- Invariant for the at-most-once trigger-alert discipline: the phrase
`p` was notified at most once, and not at all while it is still outside
`alerted_triggers`. -/
def AlertInv (p : String) (side : SideState) : Prop :=
  side.trigger_notifs.count p ≤ 1 ∧
  (p ∉ side.alerted_triggers → side.trigger_notifs.count p = 0)

/-- Concrete lifelog ending at 10:00 (starts before `entryB` but ends
after it). -/
def entryA : Lifelog := ⟨"a", some "x", none, "10:00", none⟩

/-- Concrete lifelog ending at 05:00. -/
def entryB : Lifelog := ⟨"b", some "y", none, "05:00", none⟩

/-- Three polls in which both entries appear unchanged. -/
def eventsStable3 : List CycleEvent :=
  [.batch [entryA, entryB] [], .batch [entryA, entryB] [], .batch [entryA, entryB] []]

/-- The same three polls followed by one in which only `entryB` is
returned. -/
def eventsDropA : List CycleEvent :=
  eventsStable3 ++ [.batch [entryB] []]

/-! ## Helper lemmas -/

theorem assocGet_assocSet_self {α : Type} (xs : List (String × α)) (k : String) (v : α) :
    assocGet (assocSet xs k v) k = some v := by
  induction xs with
  | nil => simp [assocGet, assocSet]
  | cons hd tl ih =>
    obtain ⟨k', w⟩ := hd
    by_cases h : k' = k
    · simp [assocGet, assocSet, h]
    · simp [assocGet, assocSet, h, ih]

theorem assocGet_assocSet_ne {α : Type} (xs : List (String × α)) (k j : String) (v : α)
    (h : j ≠ k) : assocGet (assocSet xs k v) j = assocGet xs j := by
  have hkj : k ≠ j := fun hh => h hh.symm
  induction xs with
  | nil => simp [assocGet, assocSet, hkj]
  | cons hd tl ih =>
    obtain ⟨k', w⟩ := hd
    by_cases hk : k' = k
    · subst hk
      simp [assocGet, assocSet, hkj]
    · simp only [assocSet, if_neg hk]
      by_cases hj : k' = j <;> simp [assocGet, hj, ih]

theorem triggerStep_transcript (side : SideState) (r : String) :
    (triggerStep side r).transcript = side.transcript := by
  unfold triggerStep
  cases findTrigger r with
  | none => rfl
  | some p => by_cases h : p ∈ side.alerted_triggers <;> simp [h]

theorem triggerStep_written (side : SideState) (r : String) :
    (triggerStep side r).written_logs = side.written_logs := by
  unfold triggerStep
  cases findTrigger r with
  | none => rfl
  | some p => by_cases h : p ∈ side.alerted_triggers <;> simp [h]

theorem writeStep_written (side : SideState) (l : Lifelog) :
    assocGet (writeStep side l).written_logs l.id = some (contentOf l) := by
  unfold writeStep
  by_cases h : assocGet side.written_logs l.id ≠ some (contentOf l)
  · rw [if_pos h]
    exact assocGet_assocSet_self _ _ _
  · rw [if_neg h]
    exact not_not.mp h

theorem writeStep_skip (side : SideState) (l : Lifelog)
    (h : assocGet side.written_logs l.id = some (contentOf l)) :
    writeStep side l = side := by
  unfold writeStep
  rw [if_neg (not_not.mpr h)]

theorem writeStep_append (side : SideState) (l : Lifelog)
    (h : assocGet side.written_logs l.id ≠ some (contentOf l)) :
    (writeStep side l).transcript = side.transcript ++ [mdEntry (contentOf l)] := by
  unfold writeStep
  rw [if_pos h]

theorem sideStep_written (side : SideState) (l : Lifelog) :
    assocGet (sideStep side l).written_logs l.id = some (contentOf l) := by
  unfold sideStep
  rw [triggerStep_written]
  exact writeStep_written side l

/-! ## C5: unchanged entries -/

/-- C5.  If an entry's content and endTime both equal the values recorded
for its id on the previous pass, processing it increments the recorded
`stable_count` by exactly 1, leaves every other id's record untouched,
and neither produces nor alters the `most_recent_update` candidate. -/
theorem unchanged_entry_c5 (acc : CycleAcc) (l : Lifelog) (prev : Tracked)
    (h : assocGet acc.state l.id = some prev)
    (hc : contentOf l = prev.content) (he : l.endTime = prev.endTime) :
    assocGet (trackEntry acc l).state l.id =
      some ⟨prev.content, prev.endTime, prev.stable_count + 1⟩ ∧
    (trackEntry acc l).mostRecentUpdate = acc.mostRecentUpdate ∧
    ∀ j, j ≠ l.id → assocGet (trackEntry acc l).state j = assocGet acc.state j := by
  have hcond : ¬(contentOf l ≠ prev.content ∨ l.endTime ≠ prev.endTime) := by
    simp [hc, he]
  simp only [trackEntry, h, if_neg hcond]
  refine ⟨assocGet_assocSet_self _ _ _, trivial, ?_⟩
  intro j hj
  exact assocGet_assocSet_ne _ _ _ _ hj

/-- Witness for `unchanged_entry_c5` at a concrete state and entry. -/
theorem unchanged_entry_c5_witness :
    assocGet (trackEntry ⟨[("a", ⟨"x", "10:00", 2⟩)], [], none⟩ entryA).state "a" =
      some ⟨"x", "10:00", 3⟩ ∧
    (trackEntry ⟨[("a", ⟨"x", "10:00", 2⟩)], [], none⟩ entryA).mostRecentUpdate = none := by
  have h := unchanged_entry_c5 ⟨[("a", ⟨"x", "10:00", 2⟩)], [], none⟩ entryA
    ⟨"x", "10:00", 2⟩ (by decide) (by decide) (by decide)
  exact ⟨h.1, h.2.1⟩

/-! ## C6: transcript append idempotence via `written_logs` -/

/-- C6.  Processing an entry records its content in `written_logs`;
re-processing the same id with identical content appends nothing further
to the transcript; and when the recorded content differs (in particular
on first sight) exactly one `mdEntry` is appended.  Hence identical
content for one id in two consecutive cycles is appended exactly once. -/
theorem transcript_write_once_c6 (side : SideState) (l : Lifelog) :
    assocGet (sideStep side l).written_logs l.id = some (contentOf l) ∧
    (sideStep (sideStep side l) l).transcript = (sideStep side l).transcript ∧
    (assocGet side.written_logs l.id ≠ some (contentOf l) →
      (sideStep side l).transcript = side.transcript ++ [mdEntry (contentOf l)]) := by
  refine ⟨sideStep_written side l, ?_, ?_⟩
  · show (triggerStep (writeStep (sideStep side l) l) (contentOf l)).transcript = _
    rw [triggerStep_transcript, writeStep_skip _ _ (sideStep_written side l)]
  · intro h
    show (triggerStep (writeStep side l) (contentOf l)).transcript = _
    rw [triggerStep_transcript, writeStep_append side l h]

/-- Witness for `transcript_write_once_c6`: from an empty side state the
entry is appended once and the second processing appends nothing. -/
theorem transcript_write_once_c6_witness :
    assocGet (sideStep initSide entryA).written_logs "a" = some "x" ∧
    (sideStep (sideStep initSide entryA) entryA).transcript =
      (sideStep initSide entryA).transcript ∧
    (sideStep initSide entryA).transcript = [mdEntry "x"] := by
  have h := transcript_write_once_c6 initSide entryA
  refine ⟨h.1, h.2.1, (h.2.2 (by decide)).trans (by decide)⟩

/-! ## C9: which errors are fatal -/

/-- C9 counterexample.  A filesystem failure while writing the transcript
(the append for entry "a" raises) does NOT terminate the process: the
`except Exception` at line 296 catches it, the cycle takes the
backoff-and-retry path (backoff 5 becomes 10) and nothing was appended. -/
theorem fs_write_error_c9_counterexample :
    cycleTerminates initState (.batch [entryA] ["a"]) = false ∧
    backoffAfterCycle initState (.batch [entryA] ["a"]) = some 10 ∧
    transcriptAfterCycle initState (.batch [entryA] ["a"]) = some [] := by
  exact ⟨rfl, rfl, rfl⟩

/-- C9 (amended).  Only an exception raised in the unprotected
date-rollover block at the top of the loop terminates the process; every
error raised inside the cycle's `try` block - fetch failure or a
transcript-append failure - is caught and the loop continues with the
backoff path. -/
theorem error_handling_c9 (st : LoopState) (ev : CycleEvent) :
    (ev = .rolloverFsErr → cycleTerminates st ev = true) ∧
    (ev ≠ .rolloverFsErr → cycleTerminates st ev = false) := by
  cases ev with
  | rolloverFsErr => exact ⟨fun _ => rfl, fun h => absurd rfl h⟩
  | fetchErr => exact ⟨fun h => (nomatch h), fun _ => rfl⟩
  | batch ls fails =>
    refine ⟨fun h => (nomatch h), fun _ => ?_⟩
    simp only [cycleTerminates, runCycleEvent]
    cases h : runEntries fails ⟨st.last_lifelogs, [], none⟩ st.side ls with
    | ok v => obtain ⟨acc, side⟩ := v; rfl
    | error v => obtain ⟨acc, side⟩ := v; rfl

/-- Witness for `error_handling_c9`: a rollover filesystem error is fatal,
a fetch error is not. -/
theorem error_handling_c9_witness :
    cycleTerminates initState CycleEvent.rolloverFsErr = true ∧
    cycleTerminates initState CycleEvent.fetchErr = false := by
  exact ⟨(error_handling_c9 initState .rolloverFsErr).1 rfl,
         (error_handling_c9 initState .fetchErr).2 (by decide)⟩

/-! ## C3: backoff behaviour -/

/-- Completing the per-entry loop never raises when no append is marked
as failing. -/
theorem runEntries_no_fail (ls : List Lifelog) :
    ∀ (acc : CycleAcc) (side : SideState),
      runEntries [] acc side ls =
        .ok (List.foldl trackEntry acc ls, List.foldl sideStep side ls) := by
  induction ls with
  | nil => intro acc side; rfl
  | cons l ls ih =>
    intro acc side
    unfold runEntries
    rw [if_neg (by simp)]
    exact ih _ _

/-- C3 counterexample.  Starting from backoff 5, three failed cycles and
then a successful one sleep 5, 10, 20 and 40 seconds: the successful
cycle sleeps the *current* backoff (40), not the initial delay 5 as the
claim states; only the cycle after it sleeps 5 again. -/
theorem backoff_success_sleep_c3_counterexample :
    sleepsOf [.fetchErr, .fetchErr, .fetchErr, .batch [] []] = [5, 10, 20, 40] ∧
    (40 : Nat) ≠ BACKOFF_INITIAL := by
  exact ⟨rfl, by decide⟩

/-- C3 (amended).  A successful cycle sleeps the current backoff value and
then resets the backoff to the initial 5 s, so the *next* sleep after a
success is 5; a failed cycle sleeps the current backoff and then doubles
it, capped at 300.  Three consecutive failures from backoff 5 sleep
5, 10, 20; a subsequent success sleeps 40 and resets, making the sleep
after it 5. -/
theorem backoff_rule_c3 (st : LoopState) (ls : List Lifelog) :
    sleepOfCycle st (.batch ls []) = some st.backoff ∧
    backoffAfterCycle st (.batch ls []) = some BACKOFF_INITIAL ∧
    sleepOfCycle st .fetchErr = some st.backoff ∧
    backoffAfterCycle st .fetchErr = some (min (st.backoff * 2) BACKOFF_MAX) ∧
    sleepsOf [.fetchErr, .fetchErr, .fetchErr, .batch [] [], .batch [] []] =
      [5, 10, 20, 40, 5] := by
  refine ⟨?_, ?_, rfl, rfl, rfl⟩
  · simp [sleepOfCycle, runCycleEvent, runEntries_no_fail, finishCycle]
  · simp [backoffAfterCycle, runCycleEvent, runEntries_no_fail, finishCycle]

/-! ## C1: cursor advancement -/

theorem charListLt_irrefl (a : List Char) : charListLt a a = false := by
  induction a with
  | nil => rfl
  | cons c cs ih => simp [charListLt, ih]

theorem charListLt_asymm (a b : List Char) (h : charListLt a b = true) :
    charListLt b a = false := by
  induction a generalizing b with
  | nil =>
    cases b with
    | nil => exact absurd h (by simp [charListLt])
    | cons c bs => rfl
  | cons x as ih =>
    cases b with
    | nil => exact absurd h (by simp [charListLt])
    | cons y bs =>
      simp only [charListLt, Bool.or_eq_true, Bool.and_eq_true, decide_eq_true_eq] at h ⊢
      rcases h with h | ⟨rfl, h⟩
      · simp [Bool.or_eq_false_iff, not_lt_of_lt h, (ne_of_lt h).symm]
      · simp [lt_irrefl, ih bs h]

theorem charListLt_trans (a : List Char) :
    ∀ b c, charListLt a b = true → charListLt b c = true → charListLt a c = true := by
  induction a with
  | nil =>
    intro b c _ hbc
    cases b with
    | nil => exact hbc
    | cons y bs =>
      cases c with
      | nil => exact absurd hbc (by simp [charListLt])
      | cons z cs => rfl
  | cons x as ih =>
    intro b c hab hbc
    cases b with
    | nil => exact absurd hab (by simp [charListLt])
    | cons y bs =>
      cases c with
      | nil => exact absurd hbc (by simp [charListLt])
      | cons z cs =>
        simp only [charListLt, Bool.or_eq_true, Bool.and_eq_true,
          decide_eq_true_eq] at hab hbc ⊢
        rcases hab with hab | ⟨rfl, hab⟩ <;> rcases hbc with hbc | ⟨rfl, hbc⟩
        · exact Or.inl (lt_trans hab hbc)
        · exact Or.inl hab
        · exact Or.inl hbc
        · exact Or.inr ⟨rfl, ih bs cs hab hbc⟩

theorem charListLt_connex (a : List Char) :
    ∀ b, charListLt a b = false → charListLt b a = false → a = b := by
  induction a with
  | nil =>
    intro b hab _
    cases b with
    | nil => rfl
    | cons y bs => exact absurd hab (by simp [charListLt])
  | cons x as ih =>
    intro b hab hba
    cases b with
    | nil => exact absurd hba (by simp [charListLt])
    | cons y bs =>
      simp only [charListLt, Bool.or_eq_false_iff, Bool.and_eq_false_iff,
        decide_eq_false_iff_not] at hab hba
      have hxy : x = y := le_antisymm (le_of_not_lt hba.1) (le_of_not_lt hab.1)
      subst hxy
      have h1 : charListLt as bs = false := by
        rcases hab.2 with h | h
        · exact absurd rfl h
        · exact h
      have h2 : charListLt bs as = false := by
        rcases hba.2 with h | h
        · exact absurd rfl h
        · exact h
      rw [ih bs h1 h2]

theorem pyStrLe_refl (a : String) : pyStrLe a a = true := by
  simp [pyStrLe, pyStrLt, charListLt_irrefl]

theorem pyStrLe_of_lt (a b : String) (h : pyStrLt a b = true) : pyStrLe a b = true := by
  simp [pyStrLe, pyStrLt, charListLt_asymm _ _ h]

theorem pyStrLe_of_not_lt (a b : String) (h : pyStrLt a b = false) :
    pyStrLe b a = true := by
  simp [pyStrLe, h]

theorem pyStrLe_trans (a b c : String) (hab : pyStrLe a b = true)
    (hbc : pyStrLe b c = true) : pyStrLe a c = true := by
  simp only [pyStrLe, pyStrLt, Bool.not_eq_true'] at hab hbc ⊢
  cases hca : charListLt c.data a.data with
  | false => rfl
  | true =>
    cases hab' : charListLt a.data b.data with
    | true =>
      have := charListLt_trans _ _ _ hca hab'
      rw [this] at hbc
      exact hbc
    | false =>
      have : a.data = b.data := charListLt_connex _ _ hab' hab
      rw [← this] at hbc
      rw [hca] at hbc
      exact hbc

theorem pyMaxByEnd_mem (x : String × Tracked) (ys : List (String × Tracked)) :
    pyMaxByEnd x ys ∈ x :: ys := by
  induction ys generalizing x with
  | nil => simp [pyMaxByEnd]
  | cons y ys ih =>
    unfold pyMaxByEnd
    rcases List.mem_cons.mp (ih (if pyStrLt x.2.endTime y.2.endTime then y else x)) with h | h
    · rw [h]
      by_cases hlt : pyStrLt x.2.endTime y.2.endTime = true <;> simp [hlt]
    · exact List.mem_cons_of_mem _ (List.mem_cons_of_mem _ h)

theorem pyMaxByEnd_le (x : String × Tracked) (ys : List (String × Tracked)) :
    ∀ z ∈ x :: ys, pyStrLe z.2.endTime (pyMaxByEnd x ys).2.endTime = true := by
  induction ys generalizing x with
  | nil =>
    intro z hz
    rw [List.mem_singleton.mp hz]
    exact pyStrLe_refl _
  | cons y ys ih =>
    intro z hz
    unfold pyMaxByEnd
    have hx : pyStrLe x.2.endTime (if pyStrLt x.2.endTime y.2.endTime then y else x).2.endTime = true := by
      by_cases hlt : pyStrLt x.2.endTime y.2.endTime = true
      · rw [if_pos hlt]; exact pyStrLe_of_lt _ _ hlt
      · rw [if_neg hlt]; exact pyStrLe_refl _
    have hy : pyStrLe y.2.endTime (if pyStrLt x.2.endTime y.2.endTime then y else x).2.endTime = true := by
      by_cases hlt : pyStrLt x.2.endTime y.2.endTime = true
      · rw [if_pos hlt]; exact pyStrLe_refl _
      · rw [if_neg hlt]
        exact pyStrLe_of_not_lt _ _ (by simpa using hlt)
    have hhead := ih (if pyStrLt x.2.endTime y.2.endTime then y else x)
      (if pyStrLt x.2.endTime y.2.endTime then y else x) (List.mem_cons_self _ _)
    rcases List.mem_cons.mp hz with rfl | h
    · exact pyStrLe_trans _ _ _ hx hhead
    · rcases List.mem_cons.mp h with rfl | h'
      · exact pyStrLe_trans _ _ _ hy hhead
      · exact ih _ z (List.mem_cons_of_mem _ h')

/-- C1 counterexample.  Reachable regression of the fetch cursor: two
entries (ending 10:00 and 05:00) are seen unchanged for three polls, so
the cursor advances to 10:00; on the fourth poll the 10:00 entry is
absent (dropped from tracking) and the still-stable 05:00 entry sets the
cursor back to 05:00 < 10:00, contradicting "only ever advances to a
value >= its previous value". -/
theorem cursor_regress_c1_counterexample :
    (stateAfter eventsStable3).last_stable_end_time = some "10:00" ∧
    (stateAfter eventsDropA).last_stable_end_time = some "05:00" ∧
    pyStrLe "10:00" "05:00" = false := by
  exact ⟨rfl, rfl, by decide⟩

/-- C1 (amended).  Whenever some tracked entry has
`stable_count ≥ STABLE_POLLS_REQUIRED`, the cursor is set to the maximal
`endTime` among those entries (an element of the qualifying set that
bounds all of them); when none qualifies the prior cursor is retained.
The new value is not guaranteed to be ≥ the old one: it can regress when
the entry that determined the old cursor leaves the tracked state (see
the counterexample). -/
theorem cursor_rule_c1 (state : List (String × Tracked)) (cur : Option String) :
    (state.filter (fun kv => decide (STABLE_POLLS_REQUIRED ≤ kv.2.stable_count)) = [] →
      advanceCursor state cur = cur) ∧
    (∀ (x : String × Tracked) (xs : List (String × Tracked)),
      state.filter (fun kv => decide (STABLE_POLLS_REQUIRED ≤ kv.2.stable_count)) = x :: xs →
      advanceCursor state cur = some (pyMaxByEnd x xs).2.endTime ∧
      pyMaxByEnd x xs ∈ x :: xs ∧
      ∀ z ∈ x :: xs, pyStrLe z.2.endTime (pyMaxByEnd x xs).2.endTime = true) := by
  constructor
  · intro h
    unfold advanceCursor
    rw [h]
  · intro x xs h
    unfold advanceCursor
    rw [h]
    exact ⟨rfl, pyMaxByEnd_mem x xs, pyMaxByEnd_le x xs⟩

/-- Witness for `cursor_rule_c1` at a concrete one-entry stable state. -/
theorem cursor_rule_c1_witness :
    advanceCursor [("a", (⟨"c", "09:00", 3⟩ : Tracked))] none = some "09:00" := by
  have h := (cursor_rule_c1 [("a", ⟨"c", "09:00", 3⟩)] none).2
    ("a", ⟨"c", "09:00", 3⟩) [] (by decide)
  exact h.1.trans (by decide)

/-! ## C2: candidate selection for the change notification -/

/-- C2 counterexample.  In a batch of two never-seen entries where the
first ends at 10:00 and the second at 05:00, the notified
"most recent update" is the second entry ("b"), because a new entry
overwrites the candidate unconditionally; the entry with the greatest
endTime ("a") is not the one notified. -/
theorem candidate_c2_counterexample :
    (stateAfter [.batch [entryA, entryB] []]).mainNotifs = [("b", "", "y")] ∧
    pyStrLt entryB.endTime entryA.endTime = true := by
  exact ⟨rfl, by decide⟩

theorem trackEntry_new_candidate (acc : CycleAcc) (l : Lifelog)
    (h : assocGet acc.state l.id = none) :
    (trackEntry acc l).mostRecentUpdate = some (l, "") ∧
    (trackEntry acc l).state = assocSet acc.state l.id ⟨contentOf l, l.endTime, 1⟩ := by
  simp only [trackEntry, h]
  exact ⟨trivial, trivial⟩

/-- All-new batches: the candidate after the fold is the LAST entry of the
batch. -/
theorem foldl_trackEntry_all_new (bs : List Lifelog) :
    ∀ (acc : CycleAcc) (b : Lifelog),
      (∀ e ∈ b :: bs, assocGet acc.state e.id = none) →
      ((b :: bs).map Lifelog.id).Nodup →
      (List.foldl trackEntry acc (b :: bs)).mostRecentUpdate =
        some ((b :: bs).getLast (List.cons_ne_nil _ _), "") := by
  induction bs with
  | nil =>
    intro acc b habs _
    simp only [List.foldl_cons, List.foldl_nil, List.getLast_singleton]
    exact (trackEntry_new_candidate acc b (habs b (List.mem_cons_self _ _))).1
  | cons b' bs ih =>
    intro acc b habs hnodup
    have hb := trackEntry_new_candidate acc b (habs b (List.mem_cons_self _ _))
    have habs' : ∀ e ∈ b' :: bs, assocGet (trackEntry acc b).state e.id = none := by
      intro e he
      rw [hb.2]
      have hne : e.id ≠ b.id := by
        have : b.id ∉ (b' :: bs).map Lifelog.id := by
          have := hnodup
          simp only [List.map_cons, List.nodup_cons] at this
          intro hmem
          exact this.1 hmem
        intro hcontr
        exact this (hcontr ▸ List.mem_map_of_mem Lifelog.id he)
      rw [assocGet_assocSet_ne _ _ _ _ hne]
      exact habs e (List.mem_cons_of_mem _ he)
    have hnodup' : ((b' :: bs).map Lifelog.id).Nodup := by
      simp only [List.map_cons, List.nodup_cons] at hnodup ⊢
      exact ⟨hnodup.2.1, hnodup.2.2⟩
    rw [List.foldl_cons, ih (trackEntry acc b) b' habs' hnodup',
      List.getLast_cons (List.cons_ne_nil _ _)]

/-- In a batch sorted ascending by `endTime`, the last entry bounds all
entries. -/
theorem getLast_bounds_sorted (bs : List Lifelog) :
    ∀ b : Lifelog,
      List.Pairwise (fun a a' => pyStrLe a.endTime a'.endTime = true) (b :: bs) →
      ∀ e ∈ b :: bs,
        pyStrLe e.endTime ((b :: bs).getLast (List.cons_ne_nil _ _)).endTime = true := by
  induction bs with
  | nil =>
    intro b _ e he
    rw [List.mem_singleton.mp he]
    simp only [List.getLast_singleton]
    exact pyStrLe_refl _
  | cons b' bs ih =>
    intro b hp e he
    rw [List.getLast_cons (List.cons_ne_nil _ _)]
    have hp' := List.Pairwise.of_cons hp
    rcases List.mem_cons.mp he with rfl | he'
    · have hlast : (b' :: bs).getLast (List.cons_ne_nil _ _) ∈ b' :: bs :=
        List.getLast_mem _
      have hb := List.rel_of_pairwise_cons hp hlast
      exact hb
    · exact ih b' hp' e he'

/-- C2 (amended).  (i) A never-seen entry becomes the candidate
unconditionally, superseding any previous candidate regardless of
endTime.  (ii) A changed (previously seen) entry supersedes the current
candidate exactly when its endTime is strictly greater.  (iii) Hence in
an all-new batch with distinct ids the LAST entry of the batch is the
candidate; when the batch is sorted ascending by endTime - the order the
API returns - that entry's endTime bounds every entry of the batch. -/
theorem candidate_rule_c2 :
    (∀ (acc : CycleAcc) (l : Lifelog), assocGet acc.state l.id = none →
      (trackEntry acc l).mostRecentUpdate = some (l, "")) ∧
    (∀ (acc : CycleAcc) (l : Lifelog) (prev : Tracked) (c : Lifelog) (pc : String),
      assocGet acc.state l.id = some prev →
      (contentOf l ≠ prev.content ∨ l.endTime ≠ prev.endTime) →
      acc.mostRecentUpdate = some (c, pc) →
      (trackEntry acc l).mostRecentUpdate =
        if pyStrLt c.endTime l.endTime then some (l, prev.content) else some (c, pc)) ∧
    (∀ (acc : CycleAcc) (b : Lifelog) (bs : List Lifelog),
      (∀ e ∈ b :: bs, assocGet acc.state e.id = none) →
      ((b :: bs).map Lifelog.id).Nodup →
      (List.foldl trackEntry acc (b :: bs)).mostRecentUpdate =
        some ((b :: bs).getLast (List.cons_ne_nil _ _), "") ∧
      (List.Pairwise (fun a a' => pyStrLe a.endTime a'.endTime = true) (b :: bs) →
        ∀ e ∈ b :: bs,
          pyStrLe e.endTime ((b :: bs).getLast (List.cons_ne_nil _ _)).endTime = true)) := by
  refine ⟨?_, ?_, ?_⟩
  · intro acc l h
    exact (trackEntry_new_candidate acc l h).1
  · intro acc l prev c pc h hch hcand
    simp only [trackEntry, h, if_pos hch, hcand]
  · intro acc b bs habs hnodup
    exact ⟨foldl_trackEntry_all_new bs acc b habs hnodup,
      fun hp => getLast_bounds_sorted bs b hp⟩

/-- Witness for `candidate_rule_c2`: a fresh entry supersedes a candidate
with a greater endTime; a changed entry with smaller endTime does not;
the all-new ascending batch [entryB, entryA] selects entryA. -/
theorem candidate_rule_c2_witness :
    (trackEntry ⟨[], [], some (entryA, "")⟩ entryB).mostRecentUpdate =
      some (entryB, "") ∧
    (trackEntry ⟨[("b", ⟨"old", "05:00", 2⟩)], [], some (entryA, "")⟩ entryB).mostRecentUpdate =
      some (entryA, "") ∧
    (List.foldl trackEntry ⟨[], [], none⟩ [entryB, entryA]).mostRecentUpdate =
      some (entryA, "") := by
  refine ⟨candidate_rule_c2.1 _ entryB rfl, ?_, ?_⟩
  · have h := candidate_rule_c2.2.1 ⟨[("b", ⟨"old", "05:00", 2⟩)], [], some (entryA, "")⟩
      entryB ⟨"old", "05:00", 2⟩ entryA "" rfl (by decide) rfl
    rw [h]
    decide
  · have h := (candidate_rule_c2.2.2 ⟨[], [], none⟩ entryB [entryA]
      (by decide) (by decide)).1
    rw [h]
    rfl

/-! ## C4: the stability threshold -/

theorem triggerStep_idem (side : SideState) (r : String) :
    triggerStep (triggerStep side r) r = triggerStep side r := by
  unfold triggerStep
  cases h : findTrigger r with
  | none => rfl
  | some p =>
    by_cases hp : p ∈ side.alerted_triggers
    · simp [hp]
    · simp [hp]

theorem sideStep_idem (side : SideState) (l : Lifelog) :
    sideStep (sideStep side l) l = sideStep side l := by
  show triggerStep (writeStep (sideStep side l) l) (contentOf l) = _
  rw [writeStep_skip (sideStep side l) l (sideStep_written side l)]
  show triggerStep (triggerStep (writeStep side l) (contentOf l)) (contentOf l) = _
  rw [triggerStep_idem]
  rfl

theorem first_cycle_single (l : Lifelog) :
    runCycleEvent initState (.batch [l] []) =
      .ok (⟨[(l.id, ⟨contentOf l, l.endTime, 1⟩)], none, BACKOFF_INITIAL,
            sideStep initSide l, [(l.id, "", contentOf l)]⟩, BACKOFF_INITIAL) := by
  show (match runEntries [] ⟨[], [], none⟩ initSide [l] with
    | Except.ok (acc, side) => Except.ok (finishCycle initState acc side)
    | Except.error (acc, side) =>
      Except.ok (backoffCycle { initState with last_lifelogs := acc.state, side := side })) = _
  rw [runEntries_no_fail]
  simp only [List.foldl_cons, List.foldl_nil]
  have htrack : trackEntry ⟨[], [], none⟩ l =
      ⟨[(l.id, ⟨contentOf l, l.endTime, 1⟩)], [l.id], some (l, "")⟩ := by
    simp only [trackEntry, assocGet, insertId]
    rfl
  rw [htrack]
  simp only [finishCycle]
  have hfilter : List.filter (fun kv => decide (kv.1 ∈ [l.id]))
      [(l.id, (⟨contentOf l, l.endTime, 1⟩ : Tracked))] =
      [(l.id, (⟨contentOf l, l.endTime, 1⟩ : Tracked))] := by
    simp
  rw [hfilter]
  have hstable : List.filter (fun kv => decide (STABLE_POLLS_REQUIRED ≤ kv.2.stable_count))
      [(l.id, (⟨contentOf l, l.endTime, 1⟩ : Tracked))] = [] := by
    simp [STABLE_POLLS_REQUIRED]
  simp only [advanceCursor, hstable]
  rfl

theorem runLoop_cons_ok (st st' stF : LoopState) (n : Nat) (ns : List Nat)
    (ev : CycleEvent) (evs : List CycleEvent)
    (h1 : runCycleEvent st ev = .ok (st', n))
    (h2 : runLoop st' evs = .ok (stF, ns)) :
    runLoop st (ev :: evs) = .ok (stF, n :: ns) := by
  unfold runLoop
  rw [h1]
  show (match runLoop st' evs with
    | Except.error e => Except.error e
    | Except.ok (stFin, ms) => Except.ok (stFin, n :: ms)) = _
  rw [h2]

theorem unchanged_cycle (l : Lifelog) (j : Nat) (cur : Option String) (bo : Nat)
    (side : SideState) (nots : List (String × String × String)) :
    runCycleEvent ⟨[(l.id, ⟨contentOf l, l.endTime, j⟩)], cur, bo, side, nots⟩
        (.batch [l] []) =
      .ok (⟨[(l.id, ⟨contentOf l, l.endTime, j + 1⟩)],
            (if 3 ≤ j + 1 then some l.endTime else cur), BACKOFF_INITIAL,
            sideStep side l, nots⟩, bo) := by
  show (match runEntries [] ⟨[(l.id, ⟨contentOf l, l.endTime, j⟩)], [], none⟩ side [l] with
    | Except.ok (acc, side') =>
      Except.ok (finishCycle ⟨[(l.id, ⟨contentOf l, l.endTime, j⟩)], cur, bo, side, nots⟩
        acc side')
    | Except.error (acc, side') =>
      Except.ok (backoffCycle
        { (⟨[(l.id, ⟨contentOf l, l.endTime, j⟩)], cur, bo, side, nots⟩ : LoopState) with
          last_lifelogs := acc.state, side := side' })) = _
  rw [runEntries_no_fail]
  simp only [List.foldl_cons, List.foldl_nil]
  have htrack : trackEntry ⟨[(l.id, ⟨contentOf l, l.endTime, j⟩)], [], none⟩ l =
      ⟨[(l.id, ⟨contentOf l, l.endTime, j + 1⟩)], [l.id], none⟩ := by
    have hget : assocGet [(l.id, (⟨contentOf l, l.endTime, j⟩ : Tracked))] l.id =
        some ⟨contentOf l, l.endTime, j⟩ := by
      simp [assocGet]
    simp [trackEntry, hget, assocSet, insertId]
  rw [htrack]
  simp only [finishCycle]
  have hfilter : List.filter (fun kv => decide (kv.1 ∈ [l.id]))
      [(l.id, (⟨contentOf l, l.endTime, j + 1⟩ : Tracked))] =
      [(l.id, (⟨contentOf l, l.endTime, j + 1⟩ : Tracked))] := by
    simp
  rw [hfilter]
  simp only [advanceCursor]
  by_cases h3 : 3 ≤ j + 1
  · have hstable : List.filter (fun kv => decide (STABLE_POLLS_REQUIRED ≤ kv.2.stable_count))
        [(l.id, (⟨contentOf l, l.endTime, j + 1⟩ : Tracked))] =
        [(l.id, (⟨contentOf l, l.endTime, j + 1⟩ : Tracked))] := by
      simp [STABLE_POLLS_REQUIRED, h3]
    rw [hstable, if_pos h3]
    rfl
  · have hstable : List.filter (fun kv => decide (STABLE_POLLS_REQUIRED ≤ kv.2.stable_count))
        [(l.id, (⟨contentOf l, l.endTime, j + 1⟩ : Tracked))] = [] := by
      simp [STABLE_POLLS_REQUIRED, h3]
    rw [hstable, if_neg h3]

theorem steady_run (l : Lifelog) (k : Nat) :
    ∀ (j : Nat) (side : SideState) (nots : List (String × String × String)),
      sideStep side l = side →
      runLoop ⟨[(l.id, ⟨contentOf l, l.endTime, j + 1⟩)],
               (if 3 ≤ j + 1 then some l.endTime else none),
               BACKOFF_INITIAL, side, nots⟩
          (List.replicate k (.batch [l] [])) =
        .ok (⟨[(l.id, ⟨contentOf l, l.endTime, j + 1 + k⟩)],
              (if 3 ≤ j + 1 + k then some l.endTime else none),
              BACKOFF_INITIAL, side, nots⟩,
             List.replicate k BACKOFF_INITIAL) := by
  induction k with
  | zero => intro j side nots _; rfl
  | succ k ih =>
    intro j side nots hfix
    have h1 := unchanged_cycle l (j + 1) (if 3 ≤ j + 1 then some l.endTime else none)
      BACKOFF_INITIAL side nots
    rw [hfix] at h1
    have hcur : (if 3 ≤ j + 1 + 1 then some l.endTime
        else if 3 ≤ j + 1 then some l.endTime else none) =
        (if 3 ≤ j + 1 + 1 then some l.endTime else none) := by
      by_cases h : 3 ≤ j + 1 + 1
      · rw [if_pos h, if_pos h]
      · rw [if_neg h, if_neg h, if_neg (by omega)]
    rw [hcur] at h1
    have h2 := ih (j + 1) side nots hfix
    have harith : j + 1 + 1 + k = j + 1 + (k + 1) := by omega
    rw [harith] at h2
    simp only [List.replicate_succ]
    exact runLoop_cons_ok _ _ _ _ _ _ _ h1 h2

theorem replicate_single_state (l : Lifelog) (k : Nat) :
    runLoop initState (List.replicate (k + 1) (.batch [l] [])) =
      .ok (⟨[(l.id, ⟨contentOf l, l.endTime, k + 1⟩)],
            (if 3 ≤ k + 1 then some l.endTime else none), BACKOFF_INITIAL,
            sideStep initSide l, [(l.id, "", contentOf l)]⟩,
           List.replicate (k + 1) BACKOFF_INITIAL) := by
  have h2 := steady_run l k 0 (sideStep initSide l) [(l.id, "", contentOf l)]
    (sideStep_idem initSide l)
  have h := runLoop_cons_ok _ _ _ _ _ _ _ (first_cycle_single l) h2
  have harith : 0 + 1 + k = k + 1 := by omega
  rw [harith] at h
  simp only [List.replicate_succ]
  exact h

/-- C4.  `stable_count` counts the consecutive polls in which an entry has
been observed with unchanged content and endTime (1 on first sighting,
incremented once per unchanged poll).  After being observed unchanged in
`k + 1` consecutive polls its count is exactly `k + 1`, and the cursor
has advanced to its endTime exactly when that count reached
`STABLE_POLLS_REQUIRED = 3`.  In particular an entry observed unchanged
for 3 consecutive polls is eligible (the cursor advances to its endTime)
and one observed for only 2 consecutive polls is not (the cursor is still
unset). -/
theorem stability_threshold_c4 :
    (∀ (l : Lifelog) (k : Nat),
      (stateAfter (List.replicate (k + 1) (.batch [l] []))).last_lifelogs =
        [(l.id, ⟨contentOf l, l.endTime, k + 1⟩)] ∧
      (stateAfter (List.replicate (k + 1) (.batch [l] []))).last_stable_end_time =
        (if STABLE_POLLS_REQUIRED ≤ k + 1 then some l.endTime else none)) ∧
    (∀ l : Lifelog,
      (stateAfter (List.replicate 3 (.batch [l] []))).last_stable_end_time =
        some l.endTime ∧
      (stateAfter (List.replicate 2 (.batch [l] []))).last_stable_end_time = none) := by
  have hmain : ∀ (l : Lifelog) (k : Nat),
      stateAfter (List.replicate (k + 1) (.batch [l] [])) =
        ⟨[(l.id, ⟨contentOf l, l.endTime, k + 1⟩)],
         (if 3 ≤ k + 1 then some l.endTime else none), BACKOFF_INITIAL,
         sideStep initSide l, [(l.id, "", contentOf l)]⟩ := by
    intro l k
    unfold stateAfter
    rw [replicate_single_state]
  constructor
  · intro l k
    rw [hmain l k]
    exact ⟨rfl, rfl⟩
  · intro l
    constructor
    · have h := hmain l 2
      rw [show (2 : Nat) + 1 = 3 from rfl] at h
      rw [h]
      simp
    · have h := hmain l 1
      rw [show (1 : Nat) + 1 = 2 from rfl] at h
      rw [h]
      simp

/-! ## C8: trigger alerts fire at most once per phrase -/

theorem triggerStep_none (side : SideState) (r : String) (h : findTrigger r = none) :
    triggerStep side r = side := by
  unfold triggerStep
  rw [h]

theorem triggerStep_mem (side : SideState) (r q : String) (h : findTrigger r = some q)
    (hq : q ∈ side.alerted_triggers) : triggerStep side r = side := by
  unfold triggerStep
  rw [h]
  show (if q ∈ side.alerted_triggers then side else _) = side
  rw [if_pos hq]

theorem triggerStep_new (side : SideState) (r q : String) (h : findTrigger r = some q)
    (hq : q ∉ side.alerted_triggers) :
    triggerStep side r =
      { side with
        trigger_notifs := side.trigger_notifs ++ [q]
        alerted_triggers := q :: side.alerted_triggers } := by
  unfold triggerStep
  rw [h]
  show (if q ∈ side.alerted_triggers then side else _) = _
  rw [if_neg hq]

theorem triggerStep_alert (p : String) (side : SideState) (r : String) :
    (AlertInv p side → AlertInv p (triggerStep side r)) ∧
    (p ∈ side.alerted_triggers → p ∈ (triggerStep side r).alerted_triggers ∧
      (triggerStep side r).trigger_notifs.count p = side.trigger_notifs.count p) := by
  cases hf : findTrigger r with
  | none =>
    rw [triggerStep_none side r hf]
    exact ⟨id, fun hp => ⟨hp, rfl⟩⟩
  | some q =>
    by_cases hq : q ∈ side.alerted_triggers
    · rw [triggerStep_mem side r q hf hq]
      exact ⟨id, fun hp => ⟨hp, rfl⟩⟩
    · rw [triggerStep_new side r q hf hq]
      by_cases hpq : p = q
      · subst hpq
        refine ⟨fun h => ⟨?_, ?_⟩, ?_⟩
        · simp [List.count_append, h.2 hq]
        · intro hnot
          exact absurd (List.mem_cons_self _ _) hnot
        · intro hp
          exact absurd hp hq
      · refine ⟨fun h => ⟨?_, ?_⟩, ?_⟩
        · simpa [List.count_append, List.count_singleton', hpq] using h.1
        · intro hnot
          have hp : p ∉ side.alerted_triggers := by
            intro hmem
            exact hnot (List.mem_cons_of_mem _ hmem)
          simpa [List.count_append, List.count_singleton', hpq] using h.2 hp
        · intro hp
          exact ⟨List.mem_cons_of_mem _ hp,
            by simp [List.count_append, List.count_singleton', hpq]⟩

theorem writeStep_alert_fields (side : SideState) (l : Lifelog) :
    (writeStep side l).alerted_triggers = side.alerted_triggers ∧
    (writeStep side l).trigger_notifs = side.trigger_notifs := by
  unfold writeStep
  by_cases h : assocGet side.written_logs l.id ≠ some (contentOf l)
  · rw [if_pos h]
    exact ⟨rfl, rfl⟩
  · rw [if_neg h]
    exact ⟨rfl, rfl⟩

theorem sideStep_alert (p : String) (side : SideState) (l : Lifelog) :
    (AlertInv p side → AlertInv p (sideStep side l)) ∧
    (p ∈ side.alerted_triggers → p ∈ (sideStep side l).alerted_triggers ∧
      (sideStep side l).trigger_notifs.count p = side.trigger_notifs.count p) := by
  have hw := writeStep_alert_fields side l
  have ht := triggerStep_alert p (writeStep side l) (contentOf l)
  constructor
  · intro h
    have h' : AlertInv p (writeStep side l) := by
      unfold AlertInv
      rw [hw.1, hw.2]
      exact h
    exact ht.1 h'
  · intro hp
    have hp' : p ∈ (writeStep side l).alerted_triggers := hw.1 ▸ hp
    have hcons := ht.2 hp'
    refine ⟨hcons.1, ?_⟩
    show (triggerStep (writeStep side l) (contentOf l)).trigger_notifs.count p =
      side.trigger_notifs.count p
    rw [hcons.2, hw.2]

theorem runEntries_alert (p : String) (ls : List Lifelog) :
    ∀ (fails : List String) (acc : CycleAcc) (side : SideState),
      (AlertInv p side → AlertInv p (entriesSide (runEntries fails acc side ls))) ∧
      (p ∈ side.alerted_triggers →
        p ∈ (entriesSide (runEntries fails acc side ls)).alerted_triggers ∧
        (entriesSide (runEntries fails acc side ls)).trigger_notifs.count p =
          side.trigger_notifs.count p) := by
  induction ls with
  | nil =>
    intro fails acc side
    exact ⟨id, fun hp => ⟨hp, rfl⟩⟩
  | cons l ls ih =>
    intro fails acc side
    unfold runEntries
    by_cases hfail : l.id ∈ fails ∧ assocGet side.written_logs l.id ≠ some (contentOf l)
    · rw [if_pos hfail]
      exact ⟨id, fun hp => ⟨hp, rfl⟩⟩
    · rw [if_neg hfail]
      have hstep := sideStep_alert p side l
      have hrec := ih fails (trackEntry acc l) (sideStep side l)
      constructor
      · intro h
        exact hrec.1 (hstep.1 h)
      · intro hp
        have h1 := hstep.2 hp
        have h2 := hrec.2 h1.1
        exact ⟨h2.1, h2.2.trans h1.2⟩

theorem runCycleEvent_alert (p : String) (st : LoopState) (ev : CycleEvent)
    (st' : LoopState) (n : Nat) (h : runCycleEvent st ev = .ok (st', n)) :
    (AlertInv p st.side → AlertInv p st'.side) ∧
    (p ∈ st.side.alerted_triggers →
      p ∈ st'.side.alerted_triggers ∧
      st'.side.trigger_notifs.count p = st.side.trigger_notifs.count p) := by
  cases ev with
  | rolloverFsErr => exact absurd h (by simp [runCycleEvent])
  | fetchErr =>
    have hpair : backoffCycle st = (st', n) := Except.ok.inj h
    have hst' : st' = (backoffCycle st).1 := (congrArg Prod.fst hpair).symm
    rw [hst']
    exact ⟨id, fun hp => ⟨hp, rfl⟩⟩
  | batch ls fails =>
    have hent := runEntries_alert p ls fails ⟨st.last_lifelogs, [], none⟩ st.side
    have hred : runCycleEvent st (.batch ls fails) =
        (match runEntries fails ⟨st.last_lifelogs, [], none⟩ st.side ls with
         | .ok (acc, side) => Except.ok (finishCycle st acc side)
         | .error (acc, side) =>
           Except.ok (backoffCycle { st with last_lifelogs := acc.state, side := side })) :=
      rfl
    rw [hred] at h
    cases hrun : runEntries fails ⟨st.last_lifelogs, [], none⟩ st.side ls with
    | ok v =>
      obtain ⟨acc, side⟩ := v
      rw [hrun] at h hent
      have hpair : finishCycle st acc side = (st', n) := Except.ok.inj h
      have hst' : st' = (finishCycle st acc side).1 := (congrArg Prod.fst hpair).symm
      rw [hst']
      exact hent
    | error v =>
      obtain ⟨acc, side⟩ := v
      rw [hrun] at h hent
      have hpair :
          backoffCycle { st with last_lifelogs := acc.state, side := side } = (st', n) :=
        Except.ok.inj h
      have hst' :
          st' = (backoffCycle { st with last_lifelogs := acc.state, side := side }).1 :=
        (congrArg Prod.fst hpair).symm
      rw [hst']
      exact hent

theorem runLoop_alert (p : String) (evs : List CycleEvent) :
    ∀ (st st' : LoopState) (ns : List Nat),
      runLoop st evs = .ok (st', ns) →
      (AlertInv p st.side → AlertInv p st'.side) ∧
      (p ∈ st.side.alerted_triggers →
        p ∈ st'.side.alerted_triggers ∧
        st'.side.trigger_notifs.count p = st.side.trigger_notifs.count p) := by
  induction evs with
  | nil =>
    intro st st' ns h
    have hpair : (st, ([] : List Nat)) = (st', ns) := Except.ok.inj h
    have hst : st = st' := congrArg Prod.fst hpair
    rw [← hst]
    exact ⟨id, fun hp => ⟨hp, rfl⟩⟩
  | cons ev evs ih =>
    intro st st' ns h
    unfold runLoop at h
    cases hc : runCycleEvent st ev with
    | error e => rw [hc] at h; exact absurd h (by simp)
    | ok v =>
      obtain ⟨st1, n⟩ := v
      rw [hc] at h
      have h' : (match runLoop st1 evs with
          | Except.error e => Except.error e
          | Except.ok (stFin, ms) => Except.ok (stFin, n :: ms)) =
          Except.ok (st', ns) := h
      cases hr : runLoop st1 evs with
      | error e => rw [hr] at h'; exact absurd h' (by simp)
      | ok w =>
        obtain ⟨stF, ms⟩ := w
        rw [hr] at h'
        have hpair : (stF, n :: ms) = (st', ns) := Except.ok.inj h'
        have hstF : stF = st' := congrArg Prod.fst hpair
        subst hstF
        have h1 := runCycleEvent_alert p st ev st1 n hc
        have h2 := ih st1 stF ms hr
        constructor
        · intro hinv
          exact h2.1 (h1.1 hinv)
        · intro hp
          have ha := h1.2 hp
          have hb := h2.2 ha.1
          exact ⟨hb.1, hb.2.trans ha.2⟩

/-- C8.  For every phrase value, over any run of the loop at most one
trigger notification carries that phrase; and once a phrase is in
`alerted_triggers` it stays there and no later cycle sends another
notification for it (the set is never reset while the loop runs). -/
theorem trigger_once_c8 (p : String) (evs : List CycleEvent) :
    (stateAfter evs).side.trigger_notifs.count p ≤ 1 ∧
    (∀ (st st' : LoopState) (ns : List Nat),
      runLoop st evs = .ok (st', ns) → p ∈ st.side.alerted_triggers →
      p ∈ st'.side.alerted_triggers ∧
      st'.side.trigger_notifs.count p = st.side.trigger_notifs.count p) := by
  constructor
  · unfold stateAfter
    cases h : runLoop initState evs with
    | error e => simp [initState, initSide]
    | ok v =>
      obtain ⟨st', ns⟩ := v
      have hinv : AlertInv p initState.side :=
        ⟨by simp [initState, initSide], fun _ => rfl⟩
      exact ((runLoop_alert p evs initState st' ns h).1 hinv).1
  · intro st st' ns h hp
    exact (runLoop_alert p evs st st' ns h).2 hp

/-- Witness for `trigger_once_c8`: a one-cycle run whose entry mentions
"julio" notifies it exactly once (count 1 ≤ 1), and from a state where
"julio" is already alerted a further cycle adds no notification. -/
theorem trigger_once_c8_witness :
    (stateAfter [.batch [⟨"a", some "hi Julio", none, "1", none⟩] []]).side.trigger_notifs.count
      "julio" ≤ 1 ∧
    ("julio" ∈
      (⟨[], none, 5, ⟨[], [], ["julio"], ["julio"]⟩, []⟩ : LoopState).side.alerted_triggers →
      runLoop ⟨[], none, 5, ⟨[], [], ["julio"], ["julio"]⟩, []⟩ [.fetchErr] =
        .ok (⟨[], none, 10, ⟨[], [], ["julio"], ["julio"]⟩, []⟩, [5]) →
      True) ∧
    ("julio" ∈
        (⟨[], none, 10, ⟨[], [], ["julio"], ["julio"]⟩, []⟩ : LoopState).side.alerted_triggers ∧
      (⟨[], none, 10, ⟨[], [], ["julio"], ["julio"]⟩, []⟩ : LoopState).side.trigger_notifs.count
          "julio" =
        (⟨[], none, 5, ⟨[], [], ["julio"], ["julio"]⟩, []⟩ : LoopState).side.trigger_notifs.count
          "julio") := by
  refine ⟨(trigger_once_c8 "julio" [.batch [⟨"a", some "hi Julio", none, "1", none⟩] []]).1,
    fun _ _ => trivial, ?_⟩
  exact (trigger_once_c8 "julio" [.fetchErr]).2
    ⟨[], none, 5, ⟨[], [], ["julio"], ["julio"]⟩, []⟩
    ⟨[], none, 10, ⟨[], [], ["julio"], ["julio"]⟩, []⟩ [5] rfl (by decide)

/-! ## C7: `deduplicate_transcript` is idempotent -/

theorem splitPreamble_none_of (lines : List String)
    (h : ∀ l ∈ lines, isHeader l = false) : splitPreamble lines = (lines, none) := by
  induction lines with
  | nil => rfl
  | cons l ls ih =>
    unfold splitPreamble
    rw [if_neg (by simp [h l (List.mem_cons_self _ _)])]
    rw [ih (fun x hx => h x (List.mem_cons_of_mem _ hx))]

theorem splitPreamble_none_elim (lines : List String) :
    ∀ pre, splitPreamble lines = (pre, none) →
      pre = lines ∧ ∀ l ∈ lines, isHeader l = false := by
  induction lines with
  | nil =>
    intro pre h
    have : ([] : List String) = pre := congrArg Prod.fst (by exact h)
    exact ⟨this.symm, by simp⟩
  | cons l ls ih =>
    intro pre h
    unfold splitPreamble at h
    by_cases hl : isHeader l = true
    · rw [if_pos hl] at h
      exact absurd (congrArg Prod.snd h) (by simp)
    · rw [if_neg hl] at h
      rcases hq : splitPreamble ls with ⟨p, r⟩
      rw [hq] at h
      have hpre : l :: p = pre := congrArg Prod.fst h
      have hr : r = none := congrArg Prod.snd h
      subst hr
      obtain ⟨hp, hall⟩ := ih p hq
      subst hp
      refine ⟨hpre.symm, ?_⟩
      intro x hx
      rcases List.mem_cons.mp hx with rfl | hx'
      · simpa using hl
      · exact hall x hx'

theorem splitPreamble_app (p : List String) (h : String) (rest : List String)
    (hp : ∀ l ∈ p, isHeader l = false) (hh : isHeader h = true) :
    splitPreamble (p ++ h :: rest) = (p, some (h, rest)) := by
  induction p with
  | nil =>
    show splitPreamble (h :: rest) = ([], some (h, rest))
    unfold splitPreamble
    rw [if_pos hh]
  | cons l p' ih =>
    show splitPreamble (l :: (p' ++ h :: rest)) = (l :: p', some (h, rest))
    unfold splitPreamble
    rw [if_neg (by simp [hp l (List.mem_cons_self _ _)])]
    rw [ih (fun x hx => hp x (List.mem_cons_of_mem _ hx))]

theorem splitPreamble_some_elim (lines : List String) :
    ∀ pre h rest, splitPreamble lines = (pre, some (h, rest)) →
      lines = pre ++ h :: rest ∧ (∀ l ∈ pre, isHeader l = false) ∧
      isHeader h = true := by
  induction lines with
  | nil =>
    intro pre h rest heq
    exact absurd (congrArg Prod.snd heq) (by simp [splitPreamble])
  | cons l ls ih =>
    intro pre h rest heq
    unfold splitPreamble at heq
    by_cases hl : isHeader l = true
    · rw [if_pos hl] at heq
      have h1 : ([] : List String) = pre := congrArg Prod.fst heq
      have h2 : some (l, ls) = some (h, rest) := congrArg Prod.snd heq
      have h3 := Option.some.inj h2
      have hlh : l = h := congrArg Prod.fst h3
      have hlr : ls = rest := congrArg Prod.snd h3
      subst hlh
      subst hlr
      rw [← h1]
      exact ⟨rfl, by simp, hl⟩
    · rw [if_neg hl] at heq
      rcases hq : splitPreamble ls with ⟨p, r⟩
      rw [hq] at heq
      have hpre : l :: p = pre := congrArg Prod.fst heq
      have hr : r = some (h, rest) := congrArg Prod.snd heq
      subst hr
      obtain ⟨hls, hp, hh⟩ := ih p h rest hq
      subst hls
      rw [← hpre]
      refine ⟨rfl, ?_, hh⟩
      intro x hx
      rcases List.mem_cons.mp hx with rfl | hx'
      · simpa using hl
      · exact hp x hx'

theorem dedup_eq_none (lines : List String) (pre : List String)
    (hsp : splitPreamble lines = (pre, none)) :
    deduplicate_transcript lines = pre := by
  unfold deduplicate_transcript
  rw [hsp]

theorem dedup_eq_some (lines : List String) (pre : List String) (h : String)
    (rest : List String) (hsp : splitPreamble lines = (pre, some (h, rest))) :
    deduplicate_transcript lines =
      pre ++ (dedupLoop h [] rest [] []).flatMap (fun e => e.1 :: e.2) := by
  unfold deduplicate_transcript
  rw [hsp]

theorem dedupLoop_flush (b : List String) :
    ∀ (header : String) (acc rest : List String) (entries : List (String × List String))
      (seen : List String),
      (∀ l ∈ b, isHeader l = false) →
      dedupLoop header acc (b ++ rest) entries seen =
        dedupLoop header (acc ++ b) rest entries seen := by
  induction b with
  | nil =>
    intro header acc rest entries seen _
    simp
  | cons x b' ih =>
    intro header acc rest entries seen hb
    have h1 : dedupLoop header acc ((x :: b') ++ rest) entries seen =
        dedupLoop header (acc ++ [x]) (b' ++ rest) entries seen := by
      show dedupLoop header acc (x :: (b' ++ rest)) entries seen = _
      conv_lhs => unfold dedupLoop
      rw [if_neg (by simp [hb x (List.mem_cons_self _ _)])]
    rw [h1, ih header (acc ++ [x]) rest entries seen
      (fun l hl => hb l (List.mem_cons_of_mem _ hl)), List.append_assoc,
      List.singleton_append]

theorem dedupLoop_shape (rest : List String) :
    ∀ (header : String) (acc : List String) (entries : List (String × List String))
      (seen : List String),
      isHeader header = true → (∀ l ∈ acc, isHeader l = false) →
      (∀ e ∈ entries, isHeader e.1 = true ∧ ∀ l ∈ e.2, isHeader l = false) →
      (∀ e ∈ entries, entryKey e.2 ∈ seen) →
      (entries.map (fun e => entryKey e.2)).Nodup →
      (∀ e ∈ dedupLoop header acc rest entries seen,
        isHeader e.1 = true ∧ ∀ l ∈ e.2, isHeader l = false) ∧
      ((dedupLoop header acc rest entries seen).map (fun e => entryKey e.2)).Nodup := by
  induction rest with
  | nil =>
    intro header acc entries seen hh hacc hsh hseen hnd
    unfold dedupLoop
    by_cases hk : entryKey acc ∈ seen
    · rw [if_pos hk]
      exact ⟨hsh, hnd⟩
    · rw [if_neg hk]
      constructor
      · intro e he
        rcases List.mem_append.mp he with he' | he'
        · exact hsh e he'
        · rw [List.mem_singleton.mp he']
          exact ⟨hh, hacc⟩
      · rw [List.map_append, List.nodup_append]
        refine ⟨hnd, List.nodup_singleton _, ?_⟩
        intro a ha hb
        rcases List.mem_map.mp ha with ⟨e, he, rfl⟩
        simp only [List.map_cons, List.map_nil, List.mem_singleton] at hb
        exact hk (hb ▸ hseen e he)
  | cons l ls ih =>
    intro header acc entries seen hh hacc hsh hseen hnd
    unfold dedupLoop
    by_cases hl : isHeader l = true
    · rw [if_pos hl]
      by_cases hk : entryKey acc ∈ seen
      · rw [if_pos hk]
        exact ih l [] entries seen hl (by simp) hsh hseen hnd
      · rw [if_neg hk]
        refine ih l [] (entries ++ [(header, acc)]) (entryKey acc :: seen) hl (by simp)
          ?_ ?_ ?_
        · intro e he
          rcases List.mem_append.mp he with he' | he'
          · exact hsh e he'
          · rw [List.mem_singleton.mp he']
            exact ⟨hh, hacc⟩
        · intro e he
          rcases List.mem_append.mp he with he' | he'
          · exact List.mem_cons_of_mem _ (hseen e he')
          · rw [List.mem_singleton.mp he']
            exact List.mem_cons_self _ _
        · rw [List.map_append, List.nodup_append]
          refine ⟨hnd, List.nodup_singleton _, ?_⟩
          intro a ha hb
          rcases List.mem_map.mp ha with ⟨e, he, rfl⟩
          simp only [List.map_cons, List.map_nil, List.mem_singleton] at hb
          exact hk (hb ▸ hseen e he)
    · rw [if_neg hl]
      refine ih header (acc ++ [l]) entries seen hh ?_ hsh hseen hnd
      intro x hx
      rcases List.mem_append.mp hx with hx' | hx'
      · exact hacc x hx'
      · rw [List.mem_singleton.mp hx']
        simpa using hl

theorem dedupLoop_ne (rest : List String) :
    ∀ (header : String) (acc : List String) (entries : List (String × List String))
      (seen : List String),
      (entries = [] → seen = []) →
      dedupLoop header acc rest entries seen ≠ [] := by
  induction rest with
  | nil =>
    intro header acc entries seen hes
    unfold dedupLoop
    by_cases hk : entryKey acc ∈ seen
    · rw [if_pos hk]
      intro hcontr
      rw [hes hcontr] at hk
      exact absurd hk (by simp)
    · rw [if_neg hk]
      simp
  | cons l ls ih =>
    intro header acc entries seen hes
    unfold dedupLoop
    by_cases hl : isHeader l = true
    · rw [if_pos hl]
      by_cases hk : entryKey acc ∈ seen
      · rw [if_pos hk]
        exact ih l [] entries seen hes
      · rw [if_neg hk]
        exact ih l [] (entries ++ [(header, acc)]) (entryKey acc :: seen)
          (fun hcontr => absurd hcontr (by simp))
    · rw [if_neg hl]
      exact ih header (acc ++ [l]) entries seen hes

theorem dedupLoop_refix (pieces : List (String × List String)) :
    ∀ (h : String) (b : List String) (entries : List (String × List String))
      (seen : List String),
      (∀ e ∈ pieces, isHeader e.1 = true) →
      (∀ l ∈ b, isHeader l = false) →
      (∀ e ∈ pieces, ∀ l ∈ e.2, isHeader l = false) →
      ((entries ++ (h, b) :: pieces).map (fun e => entryKey e.2)).Nodup →
      (∀ s ∈ seen, s ∈ entries.map (fun e => entryKey e.2)) →
      dedupLoop h b (pieces.flatMap (fun e => e.1 :: e.2)) entries seen =
        entries ++ (h, b) :: pieces := by
  induction pieces with
  | nil =>
    intro h b entries seen _ _ _ hnd hseen
    show dedupLoop h b [] entries seen = _
    unfold dedupLoop
    have hk : entryKey b ∉ seen := by
      intro hmem
      have hkey := hseen _ hmem
      rw [List.map_append, List.nodup_append] at hnd
      exact hnd.2.2 hkey (by simp)
    rw [if_neg hk]
  | cons piece ps ih =>
    intro h b entries seen hhead hbody hbodies hnd hseen
    obtain ⟨h2, b2⟩ := piece
    show dedupLoop h b (h2 :: (b2 ++ ps.flatMap (fun e => e.1 :: e.2))) entries seen = _
    conv_lhs => unfold dedupLoop
    rw [if_pos (hhead (h2, b2) (List.mem_cons_self _ _))]
    have hk : entryKey b ∉ seen := by
      intro hmem
      have hkey := hseen _ hmem
      rw [List.map_append, List.nodup_append] at hnd
      exact hnd.2.2 hkey (by simp)
    rw [if_neg hk]
    rw [dedupLoop_flush b2 h2 [] (ps.flatMap (fun e => e.1 :: e.2))
      (entries ++ [(h, b)]) (entryKey b :: seen)
      (fun l hl => hbodies (h2, b2) (List.mem_cons_self _ _) l hl)]
    rw [List.nil_append]
    rw [ih h2 b2 (entries ++ [(h, b)]) (entryKey b :: seen)
      (fun e he => hhead e (List.mem_cons_of_mem _ he))
      (fun l hl => hbodies (h2, b2) (List.mem_cons_self _ _) l hl)
      (fun e he => hbodies e (List.mem_cons_of_mem _ he))
      (by rw [List.append_assoc, List.singleton_append]; exact hnd)
      ?hsub]
    case hsub =>
      intro str hstr
      rcases List.mem_cons.mp hstr with rfl | hstr'
      · rw [List.map_append]
        exact List.mem_append_right _ (by simp)
      · rw [List.map_append]
        exact List.mem_append_left _ (hseen str hstr')
    rw [List.append_assoc, List.singleton_append]

/-- C7.  `deduplicate_transcript` is idempotent: applying it to its own
output changes nothing.  The output's preamble is header-free and its
kept entries have header-free bodies with pairwise distinct stripped
body texts, so re-parsing the output yields exactly the kept entries and
the filter keeps them all. -/
theorem deduplicate_idempotent_c7 (lines : List String) :
    deduplicate_transcript (deduplicate_transcript lines) =
      deduplicate_transcript lines := by
  rcases hsp : splitPreamble lines with ⟨pre, ho⟩
  cases ho with
  | none =>
    rw [dedup_eq_none lines pre hsp]
    obtain ⟨hpre, hall⟩ := splitPreamble_none_elim lines pre hsp
    subst hpre
    rw [dedup_eq_none pre pre (splitPreamble_none_of pre hall)]
  | some v =>
    obtain ⟨h, rest⟩ := v
    rw [dedup_eq_some lines pre h rest hsp]
    obtain ⟨-, hpre, hh⟩ := splitPreamble_some_elim lines pre h rest hsp
    have hshape := dedupLoop_shape rest h [] [] [] hh (by simp) (by simp) (by simp)
      (by simp)
    have hne := dedupLoop_ne rest h [] [] [] (fun _ => rfl)
    rcases hR : dedupLoop h [] rest [] [] with _ | ⟨⟨h1, b1⟩, R'⟩
    · exact absurd hR hne
    · rw [hR] at hshape
      have hflat : ((h1, b1) :: R').flatMap (fun e => e.1 :: e.2) =
          h1 :: (b1 ++ R'.flatMap (fun e => e.1 :: e.2)) := by
        simp
      rw [hflat]
      have hsp2 : splitPreamble (pre ++ h1 :: (b1 ++ R'.flatMap (fun e => e.1 :: e.2))) =
          (pre, some (h1, b1 ++ R'.flatMap (fun e => e.1 :: e.2))) :=
        splitPreamble_app pre h1 _ hpre (hshape.1 (h1, b1) (List.mem_cons_self _ _)).1
      rw [dedup_eq_some _ _ _ _ hsp2]
      rw [dedupLoop_flush b1 h1 [] (R'.flatMap (fun e => e.1 :: e.2)) [] []
        (fun l hl => (hshape.1 (h1, b1) (List.mem_cons_self _ _)).2 l hl)]
      rw [List.nil_append]
      rw [dedupLoop_refix R' h1 b1 [] []
        (fun e he => (hshape.1 e (List.mem_cons_of_mem _ he)).1)
        (fun l hl => (hshape.1 (h1, b1) (List.mem_cons_self _ _)).2 l hl)
        (fun e he l hl => (hshape.1 e (List.mem_cons_of_mem _ he)).2 l hl)
        (by rw [List.nil_append]; exact hshape.2)
        (by simp)]
      rw [List.nil_append, hflat]

/-! ## C10: entry markers, loop-written entries and restart deduplication -/

theorem startsWithChars_append_of (p a : List Char) (h : startsWithChars p a = true)
    (b : List Char) : startsWithChars p (a ++ b) = true := by
  induction p generalizing a with
  | nil => rfl
  | cons q ps ih =>
    cases a with
    | nil => exact absurd h (by simp [startsWithChars])
    | cons c as =>
      simp only [startsWithChars, Bool.and_eq_true] at h ⊢
      exact ⟨h.1, ih as h.2⟩

theorem noHdrAfterNl_append_right (a : List Char) :
    ∀ b, noHdrAfterNl (a ++ b) = true → noHdrAfterNl b = true := by
  induction a with
  | nil => exact fun b h => h
  | cons c a' ih =>
    intro b h
    have h' : (if c = '\n' then
        !startsWithChars "## ".data (a' ++ b) && noHdrAfterNl (a' ++ b)
        else noHdrAfterNl (a' ++ b)) = true := h
    by_cases hc : c = '\n'
    · rw [if_pos hc] at h'
      exact ih b (Bool.and_elim_right h')
    · rw [if_neg hc] at h'
      exact ih b h' 

theorem matchPrefixCI_split (ps : List Char) :
    ∀ (cs m r : List Char), matchPrefixCI ps cs = some (m, r) → cs = m ++ r := by
  induction ps with
  | nil =>
    intro cs m r h
    unfold matchPrefixCI at h
    have h' := Option.some.inj h
    have hm : ([] : List Char) = m := congrArg Prod.fst h'
    have hr : cs = r := congrArg Prod.snd h'
    rw [← hm, hr]
    rfl
  | cons p ps' ih =>
    intro cs m r h
    cases cs with
    | nil => exact absurd h (by simp [matchPrefixCI])
    | cons c cs' =>
      unfold matchPrefixCI at h
      by_cases hp : p = c.toLower
      · rw [if_pos hp] at h
        cases hrec : matchPrefixCI ps' cs' with
        | none => rw [hrec] at h; exact absurd h (by simp)
        | some v =>
          obtain ⟨m', r'⟩ := v
          rw [hrec] at h
          have h' := Option.some.inj h
          have hm : c :: m' = m := congrArg Prod.fst h'
          have hr : r' = r := congrArg Prod.snd h'
          rw [← hm, ← hr, List.cons_append]
          rw [ih cs' m' r' hrec]
      · rw [if_neg hp] at h
        exact absurd h (by simp)

theorem matchPrefixCI_chars (ps : List Char) :
    ∀ (cs m r : List Char), matchPrefixCI ps cs = some (m, r) →
      ∀ c ∈ m, c.toLower ∈ ps := by
  induction ps with
  | nil =>
    intro cs m r h c hc
    unfold matchPrefixCI at h
    have hm : ([] : List Char) = m := congrArg Prod.fst (Option.some.inj h)
    rw [← hm] at hc
    exact absurd hc (by simp)
  | cons p ps' ih =>
    intro cs m r h c hc
    cases cs with
    | nil => exact absurd h (by simp [matchPrefixCI])
    | cons c' cs' =>
      unfold matchPrefixCI at h
      by_cases hp : p = c'.toLower
      · rw [if_pos hp] at h
        cases hrec : matchPrefixCI ps' cs' with
        | none => rw [hrec] at h; exact absurd h (by simp)
        | some v =>
          obtain ⟨m', r'⟩ := v
          rw [hrec] at h
          have hm : c' :: m' = m := congrArg Prod.fst (Option.some.inj h)
          rw [← hm] at hc
          rcases List.mem_cons.mp hc with rfl | hc'
          · rw [← hp]
            exact List.mem_cons_self _ _
          · exact List.mem_cons_of_mem _ (ih cs' m' r' hrec c hc')
      · rw [if_neg hp] at h
        exact absurd h (by simp)

theorem matchAnyAt_split (cs m r : List Char) (h : matchAnyAt cs = some (m, r)) :
    cs = m ++ r ∧ '\n' ∉ m := by
  unfold matchAnyAt at h
  cases h1 : matchPrefixCI "to do list".data cs with
  | some v =>
    obtain ⟨m1, r1⟩ := v
    rw [h1] at h
    have hv := Option.some.inj h
    have hm : m1 = m := congrArg Prod.fst hv
    have hr : r1 = r := congrArg Prod.snd hv
    subst hm; subst hr
    refine ⟨matchPrefixCI_split _ cs _ _ h1, fun hmem => ?_⟩
    have := matchPrefixCI_chars _ cs _ _ h1 '\n' hmem
    exact absurd this (by decide)
  | none =>
    rw [h1] at h
    cases h2 : matchPrefixCI "perplexity".data cs with
    | some v =>
      obtain ⟨m2, r2⟩ := v
      rw [h2] at h
      have hv := Option.some.inj h
      have hm : m2 = m := congrArg Prod.fst hv
      have hr : r2 = r := congrArg Prod.snd hv
      subst hm; subst hr
      refine ⟨matchPrefixCI_split _ cs _ _ h2, fun hmem => ?_⟩
      have := matchPrefixCI_chars _ cs _ _ h2 '\n' hmem
      exact absurd this (by decide)
    | none =>
      rw [h2] at h
      refine ⟨matchPrefixCI_split _ cs _ _ h, fun hmem => ?_⟩
      have := matchPrefixCI_chars _ cs _ _ h '\n' hmem
      exact absurd this (by decide)

theorem noHdrAfterNl_append_nlFree (a : List Char) :
    ∀ b, '\n' ∉ a → noHdrAfterNl (a ++ b) = noHdrAfterNl b := by
  induction a with
  | nil => intro b _; rfl
  | cons c a' ih =>
    intro b ha
    have hc : ¬c = '\n' := fun h => ha (h ▸ List.mem_cons_self _ _)
    show (if c = '\n' then
        !startsWithChars "## ".data (a' ++ b) && noHdrAfterNl (a' ++ b)
        else noHdrAfterNl (a' ++ b)) = noHdrAfterNl b
    rw [if_neg hc]
    exact ih b (fun h => ha (List.mem_cons_of_mem _ h))

theorem startsWithChars_highlightAux (f : Nat) :
    ∀ (p cs : List Char), '*' ∉ p →
      startsWithChars p (highlightAux f cs) = true → startsWithChars p cs = true := by
  induction f with
  | zero => exact fun p cs _ h => h
  | succ f ih =>
    intro p cs hp h
    cases cs with
    | nil =>
      cases p with
      | nil => rfl
      | cons q ps => exact absurd h (by simp [highlightAux, startsWithChars])
    | cons c cs' =>
      cases hm : matchAnyAt (c :: cs') with
      | some v =>
        obtain ⟨m, r⟩ := v
        have h' : startsWithChars p
            ('*' :: '*' :: (m ++ '*' :: '*' :: highlightAux f r)) = true := by
          have hred : highlightAux (f + 1) (c :: cs') =
              '*' :: '*' :: (m ++ '*' :: '*' :: highlightAux f r) := by
            conv_lhs => unfold highlightAux
            rw [hm]
          rw [← hred]
          exact h
        cases p with
        | nil => rfl
        | cons q ps =>
          have hq : ¬q = '*' := fun hcontr => hp (hcontr ▸ List.mem_cons_self _ _)
          simp only [startsWithChars, Bool.and_eq_true, decide_eq_true_eq] at h'
          exact absurd h'.1 hq
      | none =>
        have h' : startsWithChars p (c :: highlightAux f cs') = true := by
          have hred : highlightAux (f + 1) (c :: cs') = c :: highlightAux f cs' := by
            conv_lhs => unfold highlightAux
            rw [hm]
          rw [← hred]
          exact h
        cases p with
        | nil => rfl
        | cons q ps =>
          simp only [startsWithChars, Bool.and_eq_true, decide_eq_true_eq] at h' ⊢
          exact ⟨h'.1, ih ps cs' (fun hcontr => hp (List.mem_cons_of_mem _ hcontr)) h'.2⟩

theorem noHdrAfterNl_highlightAux (f : Nat) :
    ∀ cs : List Char, noHdrAfterNl cs = true →
      noHdrAfterNl (highlightAux f cs) = true := by
  induction f with
  | zero => exact fun cs h => h
  | succ f ih =>
    intro cs h
    cases cs with
    | nil => rfl
    | cons c cs' =>
      cases hm : matchAnyAt (c :: cs') with
      | some v =>
        obtain ⟨m, r⟩ := v
        have hred : highlightAux (f + 1) (c :: cs') =
            '*' :: '*' :: (m ++ '*' :: '*' :: highlightAux f r) := by
          conv_lhs => unfold highlightAux
          rw [hm]
        rw [hred]
        obtain ⟨hsplit, hnlm⟩ := matchAnyAt_split (c :: cs') m r hm
        have hr : noHdrAfterNl r = true := by
          have := h
          rw [hsplit] at this
          exact noHdrAfterNl_append_right m r this
        have hrw : ('*' :: '*' :: (m ++ '*' :: '*' :: highlightAux f r)) =
            (('*' :: '*' :: m) ++ ['*', '*']) ++ highlightAux f r := by
          simp
        rw [hrw]
        rw [noHdrAfterNl_append_nlFree (('*' :: '*' :: m) ++ ['*', '*'])
          (highlightAux f r) ?hnl]
        case hnl =>
          intro hcontr
          rcases List.mem_append.mp hcontr with hx | hx
          · rcases List.mem_cons.mp hx with hc1 | hx'
            · exact absurd hc1 (by decide)
            · rcases List.mem_cons.mp hx' with hc2 | hx''
              · exact absurd hc2 (by decide)
              · exact hnlm hx''
          · rcases List.mem_cons.mp hx with hc1 | hx'
            · exact absurd hc1 (by decide)
            · rcases List.mem_cons.mp hx' with hc2 | hx''
              · exact absurd hc2 (by decide)
              · exact absurd hx'' (by simp)
        exact ih r hr
      | none =>
        have hred : highlightAux (f + 1) (c :: cs') = c :: highlightAux f cs' := by
          conv_lhs => unfold highlightAux
          rw [hm]
        rw [hred]
        by_cases hc : c = '\n'
        · have h' : (!startsWithChars "## ".data cs' && noHdrAfterNl cs') = true := by
            have hh : (if c = '\n' then
                !startsWithChars "## ".data cs' && noHdrAfterNl cs'
                else noHdrAfterNl cs') = true := h
            rw [if_pos hc] at hh
            exact hh
          show (if c = '\n' then
              !startsWithChars "## ".data (highlightAux f cs') &&
                noHdrAfterNl (highlightAux f cs')
              else noHdrAfterNl (highlightAux f cs')) = true
          rw [if_pos hc]
          rw [Bool.and_eq_true] at h' ⊢
          constructor
          · rw [Bool.not_eq_true'] at h' ⊢
            cases hsw : startsWithChars "## ".data (highlightAux f cs') with
            | false => rfl
            | true =>
              have := startsWithChars_highlightAux f "## ".data cs' (by decide) hsw
              rw [this] at h'
              exact absurd h'.1 (by simp)
          · exact ih cs' h'.2
        · have h' : noHdrAfterNl cs' = true := by
            have hh : (if c = '\n' then
                !startsWithChars "## ".data cs' && noHdrAfterNl cs'
                else noHdrAfterNl cs') = true := h
            rw [if_neg hc] at hh
            exact hh
          show (if c = '\n' then
              !startsWithChars "## ".data (highlightAux f cs') &&
                noHdrAfterNl (highlightAux f cs')
              else noHdrAfterNl (highlightAux f cs')) = true
          rw [if_neg hc]
          exact ih cs' h'

theorem startsWithChars_append_nl (a : List Char) :
    ∀ (p b : List Char), '\n' ∉ p →
      startsWithChars p (a ++ '\n' :: b) = startsWithChars p a := by
  induction a with
  | nil =>
    intro p b hp
    cases p with
    | nil => rfl
    | cons q ps =>
      have hq : ¬q = '\n' := fun h => hp (h ▸ List.mem_cons_self _ _)
      show (decide (q = '\n') && startsWithChars ps b) = startsWithChars (q :: ps) []
      simp [startsWithChars, hq]
  | cons c as ih =>
    intro p b hp
    cases p with
    | nil => rfl
    | cons q ps =>
      show (decide (q = c) && startsWithChars ps (as ++ '\n' :: b)) =
        (decide (q = c) && startsWithChars ps as)
      rw [ih ps b (fun h => hp (List.mem_cons_of_mem _ h))]

theorem noHdrAfterNl_append_nn (x : List Char) (h : noHdrAfterNl x = true) :
    noHdrAfterNl (x ++ ['\n', '\n']) = true := by
  induction x with
  | nil => rfl
  | cons c x' ih =>
    by_cases hc : c = '\n'
    · have h' : (!startsWithChars "## ".data x' && noHdrAfterNl x') = true := by
        have hh : (if c = '\n' then !startsWithChars "## ".data x' && noHdrAfterNl x'
            else noHdrAfterNl x') = true := h
        rw [if_pos hc] at hh
        exact hh
      rw [Bool.and_eq_true] at h'
      show (if c = '\n' then
          !startsWithChars "## ".data (x' ++ ['\n', '\n']) &&
            noHdrAfterNl (x' ++ ['\n', '\n'])
          else noHdrAfterNl (x' ++ ['\n', '\n'])) = true
      rw [if_pos hc, Bool.and_eq_true]
      constructor
      · have hsw : startsWithChars "## ".data (x' ++ '\n' :: ['\n']) =
            startsWithChars "## ".data x' := startsWithChars_append_nl x' _ _ (by decide)
        rw [show x' ++ ['\n', '\n'] = x' ++ '\n' :: ['\n'] from rfl, hsw]
        exact h'.1
      · exact ih h'.2
    · have h' : noHdrAfterNl x' = true := by
        have hh : (if c = '\n' then !startsWithChars "## ".data x' && noHdrAfterNl x'
            else noHdrAfterNl x') = true := h
        rw [if_neg hc] at hh
        exact hh
      show (if c = '\n' then
          !startsWithChars "## ".data (x' ++ ['\n', '\n']) &&
            noHdrAfterNl (x' ++ ['\n', '\n'])
          else noHdrAfterNl (x' ++ ['\n', '\n'])) = true
      rw [if_neg hc]
      exact ih h'

theorem headerFree_highlight (c : String) (h : headerFree c.data = true) :
    headerFree (highlight c).data = true := by
  unfold headerFree at h ⊢
  rw [Bool.and_eq_true] at h ⊢
  constructor
  · rw [Bool.not_eq_true'] at h ⊢
    cases hsw : startsWithChars "## ".data (highlight c).data with
    | false => rfl
    | true =>
      have := startsWithChars_highlightAux c.data.length "## ".data c.data
        (by decide) hsw
      rw [this] at h
      exact absurd h.1 (by simp)
  · exact noHdrAfterNl_highlightAux c.data.length c.data h.2

theorem headerFree_mdEntry (c : String) (h : headerFree c.data = true) :
    headerFree (mdEntry c).data = true := by
  have hdata : (mdEntry c).data = (highlight c).data ++ ['\n', '\n'] := rfl
  have hh := headerFree_highlight c h
  unfold headerFree at hh ⊢
  rw [Bool.and_eq_true] at hh ⊢
  rw [hdata]
  constructor
  · rw [Bool.not_eq_true'] at hh ⊢
    rw [show (highlight c).data ++ ['\n', '\n'] = (highlight c).data ++ '\n' :: ['\n']
      from rfl]
    rw [startsWithChars_append_nl _ _ _ (by decide)]
    exact hh.1
  · exact noHdrAfterNl_append_nn _ hh.2

theorem linesKeepAux_no_header (cs : List Char) :
    ∀ acc : List Char,
      startsWithChars "## ".data (acc ++ cs) = false → noHdrAfterNl cs = true →
      ∀ l ∈ linesKeepAux acc cs, isHeader l = false := by
  induction cs with
  | nil =>
    intro acc hsw _ l hl
    unfold linesKeepAux at hl
    by_cases ha : acc = []
    · rw [if_pos ha] at hl
      exact absurd hl (by simp)
    · rw [if_neg ha] at hl
      rw [List.mem_singleton.mp hl]
      show startsWithChars "## ".data acc = false
      rw [← List.append_nil acc]
      exact hsw
  | cons c cs' ih =>
    intro acc hsw hnd l hl
    by_cases hc : c = '\n'
    · have hl' : l ∈ (⟨acc ++ [c]⟩ : String) :: linesKeepAux [] cs' := by
        have hred : linesKeepAux acc (c :: cs') =
            (⟨acc ++ [c]⟩ : String) :: linesKeepAux [] cs' := by
          conv_lhs => unfold linesKeepAux
          rw [if_pos hc]
        rw [← hred]
        exact hl
      have hnd' : (!startsWithChars "## ".data cs' && noHdrAfterNl cs') = true := by
        have hh : (if c = '\n' then !startsWithChars "## ".data cs' && noHdrAfterNl cs'
            else noHdrAfterNl cs') = true := hnd
        rw [if_pos hc] at hh
        exact hh
      rw [Bool.and_eq_true, Bool.not_eq_true'] at hnd'
      rcases List.mem_cons.mp hl' with rfl | hl''
      · show startsWithChars "## ".data (acc ++ [c]) = false
        cases hsw2 : startsWithChars "## ".data (acc ++ [c]) with
        | false => rfl
        | true =>
          have := startsWithChars_append_of _ _ hsw2 cs'
          rw [List.append_assoc, List.singleton_append] at this
          rw [this] at hsw
          exact absurd hsw (by simp)
      · exact ih [] (by simpa using hnd'.1) hnd'.2 l hl''
    · have hl' : l ∈ linesKeepAux (acc ++ [c]) cs' := by
        have hred : linesKeepAux acc (c :: cs') = linesKeepAux (acc ++ [c]) cs' := by
          conv_lhs => unfold linesKeepAux
          rw [if_neg hc]
        rw [← hred]
        exact hl
      have hnd' : noHdrAfterNl cs' = true := by
        have hh : (if c = '\n' then !startsWithChars "## ".data cs' && noHdrAfterNl cs'
            else noHdrAfterNl cs') = true := hnd
        rw [if_neg hc] at hh
        exact hh
      refine ih (acc ++ [c]) ?_ hnd' l hl'
      rw [List.append_assoc, List.singleton_append]
      exact hsw

/-- C10 counterexample.  When the fetched content itself begins with
"## ", the loop's appended entry does contain a line starting with
"## " (the append adds no header of its own but preserves the content's
lines), and restart-time deduplication then DOES remove a duplicate
entry written by this program: two distinct ids with the same such
content are both appended, and `deduplicate_transcript` drops the
second. -/
theorem dedup_removes_c10_counterexample :
    (stateAfter [.batch [⟨"a", some "## h\nbody", none, "1", none⟩,
        ⟨"b", some "## h\nbody", none, "2", none⟩] []]).side.transcript =
      [mdEntry "## h\nbody", mdEntry "## h\nbody"] ∧
    isHeader "## h\n" = true ∧
    "## h\n" ∈ linesKeepNl (mdEntry "## h\nbody") ∧
    deduplicate_transcript
        (linesKeepNl ("# transcript for 2024-01-01\n\n" ++
          String.join [mdEntry "## h\nbody", mdEntry "## h\nbody"])) ≠
      linesKeepNl ("# transcript for 2024-01-01\n\n" ++
        String.join [mdEntry "## h\nbody", mdEntry "## h\nbody"]) := by
  exact ⟨rfl, by decide, by decide, by decide⟩

/-- C10 (amended).  `deduplicate_transcript` recognises an entry only by a
line starting with "## ": a file none of whose lines starts with "## "
is rewritten unchanged.  The poll loop appends each entry as the bare
highlighted body `mdEntry content` with no header line of its own, so
the appended text contains a "## "-starting line only when the fetched
content itself does: whenever the content is header-free, so is the
appended entry, every line it contributes to the file is a non-header
line, and restart-time deduplication therefore never removes duplicate
entries the loop wrote for such content. -/
theorem dedup_header_free_c10 :
    (∀ lines : List String, (∀ l ∈ lines, isHeader l = false) →
      deduplicate_transcript lines = lines) ∧
    (∀ s : String, headerFree s.data = true →
      ∀ l ∈ linesKeepNl s, isHeader l = false) ∧
    (∀ c : String, headerFree c.data = true →
      headerFree (mdEntry c).data = true) := by
  refine ⟨?_, ?_, headerFree_mdEntry⟩
  · intro lines h
    exact dedup_eq_none lines lines (splitPreamble_none_of lines h)
  · intro s hs l hl
    unfold headerFree at hs
    rw [Bool.and_eq_true, Bool.not_eq_true'] at hs
    exact linesKeepAux_no_header s.data [] (by simpa using hs.1) hs.2 l hl

/-- Witness for `dedup_header_free_c10` on concrete header-free data. -/
theorem dedup_header_free_c10_witness :
    deduplicate_transcript ["# transcript for 2024-01-01\n", "\n", "hello\n", "\n"] =
      ["# transcript for 2024-01-01\n", "\n", "hello\n", "\n"] ∧
    isHeader "x\n" = false ∧
    headerFree (mdEntry "hello julio").data = true := by
  refine ⟨dedup_header_free_c10.1 _ (by decide), ?_, dedup_header_free_c10.2.2 _ (by decide)⟩
  exact dedup_header_free_c10.2.1 "x\ny" (by decide) "x\n" (by decide)
